import Mathlib

/-!
Verification of the action-reference resolution and rewrite engine of the
actions-toolkit repository. Go strings are modelled as lists of characters
(`Str`); the Go standard-library string operations used by the code are
translated as executable structural recursions below, and each repository
function is translated from its Go source on top of them.
-/

set_option autoImplicit false

/-- Go strings, modelled as lists of characters (all inputs of interest are ASCII). -/
abbrev Str := List Char

/-- The whitespace test of Go's `unicode.IsSpace` restricted to the Latin-1 range,
as used by `strings.Fields` and `strings.TrimSpace`. -/
def goIsSpace (c : Char) : Bool :=
  decide (c = ' ' ∨ c = '\t' ∨ c = '\n' ∨ c = '\x0b' ∨ c = '\x0c' ∨ c = '\r'
    ∨ c = '\x85' ∨ c = '\xa0')

/-- Go `strings.HasPrefix s pre` : `goHasPrefix s pre`. -/
def goHasPrefix : Str → Str → Bool
  | _, [] => true
  | [], _ :: _ => false
  | c :: cs, p :: ps => (c == p) && goHasPrefix cs ps

/-- Split at the first occurrence of character `c`: returns the parts before and
after it, or `none` when `c` does not occur. Building block for Go's
`strings.SplitN` with a one-character separator. -/
def splitFirst (c : Char) : Str → Option (Str × Str)
  | [] => none
  | x :: xs =>
    if x = c then some ([], xs)
    else
      match splitFirst c xs with
      | none => none
      | some (a, b) => some (x :: a, b)

/-- Go `strings.Split s sep` for a one-character separator `sep`. -/
def splitOnChar (c : Char) : Str → List Str
  | [] => [[]]
  | x :: xs =>
    if x = c then [] :: splitOnChar c xs
    else
      match splitOnChar c xs with
      | [] => [[x]]
      | t :: ts => (x :: t) :: ts

/-- Go `strings.SplitN s sep n` for a one-character separator. -/
def splitNChar (c : Char) : Nat → Str → List Str
  | 0, _ => []
  | 1, l => [l]
  | n + 2, l =>
    match splitFirst c l with
    | none => [l]
    | some (a, b) => a :: splitNChar c (n + 1) b

/-- Go `strings.TrimRight s " "`: drop trailing space characters. -/
def trimRightSpaces (l : Str) : Str :=
  (l.reverse.dropWhile (fun c => c == ' ')).reverse

/-- Go `strings.TrimSpace`: drop leading and trailing whitespace. -/
def goTrimSpace (l : Str) : Str :=
  ((l.dropWhile goIsSpace).reverse.dropWhile goIsSpace).reverse

/-- Accumulator-passing core of Go `strings.Fields`; `acc` holds the characters
of the current token in reverse order. -/
def goFieldsAux (acc : Str) : Str → List Str
  | [] => if acc.isEmpty then [] else [acc.reverse]
  | c :: rest =>
    if goIsSpace c then
      if acc.isEmpty then goFieldsAux [] rest else acc.reverse :: goFieldsAux [] rest
    else goFieldsAux (c :: acc) rest

/-- Go `strings.Fields s`: the whitespace-separated tokens of `s`. -/
def goFields (l : Str) : List Str := goFieldsAux [] l

/-- Go `strings.Join parts sep`. -/
def joinWith (sep : Str) : List Str → Str
  | [] => []
  | [x] => x
  | x :: y :: rest => x ++ sep ++ joinWith sep (y :: rest)

/-- Go `strings.Contains s sub` (substring occurrence test). -/
def occursIn (pat : Str) : Str → Bool
  | [] => pat.isEmpty
  | c :: rest => goHasPrefix (c :: rest) pat || occursIn pat rest

/-- Go `strings.Replace s old new 1`: replace the first occurrence of `pat`. -/
def replaceFirst (pat repl : Str) : Str → Str
  | [] => if pat.isEmpty then repl else []
  | c :: rest =>
    if goHasPrefix (c :: rest) pat then repl ++ (c :: rest).drop pat.length
    else c :: replaceFirst pat repl rest

/-- Go `strings.ReplaceAll` with an empty pattern: the replacement is inserted
at every character boundary. -/
def interleaveAll (repl : Str) : Str → Str
  | [] => repl
  | c :: rest => repl ++ c :: interleaveAll repl rest

/-- Scanning core of Go `strings.ReplaceAll` for a nonempty pattern. The `skip`
counter counts characters of an already-matched occurrence still to be consumed,
giving leftmost non-overlapping replacement. -/
def goReplaceAllAux (pat repl : Str) : Nat → Str → Str
  | 0, [] => []
  | 0, c :: rest =>
    if goHasPrefix (c :: rest) pat then
      repl ++ goReplaceAllAux pat repl (pat.length - 1) rest
    else c :: goReplaceAllAux pat repl 0 rest
  | _ + 1, [] => []
  | skip + 1, _ :: rest => goReplaceAllAux pat repl skip rest

/-- Go `strings.ReplaceAll s old new`. -/
def goReplaceAll (pat repl l : Str) : Str :=
  if pat.isEmpty then interleaveAll repl l else goReplaceAllAux pat repl 0 l

/-- The test compiled from the regular expression `^[0-9a-fA-F]+$`
(one hexadecimal digit). -/
def isHexDigitGo (c : Char) : Bool :=
  c.isDigit || (decide ('a' ≤ c) && decide (c ≤ 'f')) || (decide ('A' ≤ c) && decide (c ≤ 'F'))

/-- The `isHexString` helper of the cmd and processor packages:
`regexp.MatchString ("^[0-9a-fA-F]+$") s`. -/
def isHexString (x : Str) : Bool :=
  !x.isEmpty && x.all isHexDigitGo

/-- `IsVersionNumber` from internal/processor: after stripping an optional
leading `v`, every character is a digit or a dot and at least one dot occurs. -/
def IsVersionNumber (x : Str) : Bool :=
  let y := if goHasPrefix x (['v']) then x.drop 1 else x
  y.all (fun c => c.isDigit || c == '.') && y.contains '.'

/-- `extractMajorVersion`, translated from the three verbatim-identical copies
in internal/github, internal/processor and cmd: strip an optional leading `v`,
take the text before the first dot, and restore the `v` when it was present. -/
def extractMajorVersion (version : Str) : Str :=
  if version.isEmpty then []
  else
    let versionStr := if goHasPrefix version (['v']) then version.drop 1 else version
    match splitOnChar '.' versionStr with
    | [] => version
    | h :: _ => if goHasPrefix version (['v']) then 'v' :: h else h

namespace GH

/-- `isMajorVersionConstraint` from internal/github/action_releases.go: empty
input and 40-character hexadecimal strings are rejected, otherwise the token is
a major constraint iff it has no dot after stripping an optional leading `v`. -/
def isMajorVersionConstraint (version : Str) : Bool :=
  if version.isEmpty then false
  else if version.length == 40 && isHexString version then false
  else
    let versionStr := if goHasPrefix version (['v']) then version.drop 1 else version
    !(versionStr.contains '.')

end GH

namespace Proc

/-- `isMajorVersionConstraint` from internal/processor (and the verbatim cmd
copy in cmd/update.go): no 40-hex-character guard, just the dot test after
stripping an optional leading `v`. -/
def isMajorVersionConstraint (version : Str) : Bool :=
  if version.isEmpty then false
  else
    let versionStr := if goHasPrefix version (['v']) then version.drop 1 else version
    !(versionStr.contains '.')

end Proc

namespace GH

/-- `ReleaseInfo` from internal/github: the cached resolution result. -/
structure ReleaseInfo where
  MajorVersion : Str
  FullVersion : Str
  SHA : Str
deriving DecidableEq

/-- The process-wide `releaseCache` map, modelled as an association list with
unique keys; `cacheInsert` is Go map assignment. -/
abbrev Cache := List (Str × ReleaseInfo)

/-- Go map read `releaseCache[k]`. -/
def cacheLookup : Cache → Str → Option ReleaseInfo
  | [], _ => none
  | (k', v) :: rest, k => if k' = k then some v else cacheLookup rest k

/-- Go map assignment `releaseCache[k] = v`: unconditionally replaces any
existing entry for `k` and never removes a key. -/
def cacheInsert : Cache → Str → ReleaseInfo → Cache
  | [], k, v => [(k, v)]
  | (k', v') :: rest, k, v =>
    if k' = k then (k, v) :: rest else (k', v') :: cacheInsert rest k v

/-- An error of the hosting API: either a response carrying an HTTP status code
(`resp != nil`) or a transport failure with no response (`resp == nil`). -/
inductive ApiError where
  | withStatus (status : Nat) (msg : Str)
  | noResp (msg : Str)
deriving DecidableEq

/-- Result of one call against the hosting API. -/
inductive ApiResult (α : Type) where
  | ok (val : α)
  | fail (e : ApiError)
deriving DecidableEq

/-- The fields of a release object read by the code: `TagName` (a nullable
pointer) and `GetTargetCommitish()` (empty string when absent). -/
structure Release where
  tagName : Option Str
  targetCommitish : Str
deriving DecidableEq

/-- The field of a git-ref response read by the code:
`GetObject().GetSHA()` (empty string when absent). -/
structure GitRef where
  objectSHA : Str
deriving DecidableEq

/-- The external hosting-API collaborator built from the token:
`client.Repositories.GetLatestRelease(ctx, owner, repo)` and
`client.Git.GetRef(ctx, owner, repo, ref)`. A nil release with nil error is
`ok none`. -/
structure Client where
  latestRelease : Str → Str → ApiResult (Option Release)
  getRef : Str → Str → Str → ApiResult GitRef

/-- The 404 test on an error: `resp != nil && resp.StatusCode == http.StatusNotFound`. -/
def respIsNotFound : ApiError → Bool
  | .withStatus status _ => status == 404
  | .noResp _ => false

/-- A Go `(string, string, error)` triple as returned by the release-lookup
functions. -/
structure Result3 where
  version : Str
  sha : Str
  err : Option ApiError
deriving DecidableEq

/-- `getBaseActionName` from internal/github: keep only `owner/repo`. -/
def getBaseActionName (actionName : Str) : Str :=
  match splitNChar '/' 3 actionName with
  | p0 :: p1 :: _ => p0 ++ '/' :: p1
  | _ => actionName

/-- `getLatestReleaseWithClient` from internal/github/action_releases.go,
explicit in the cache state it may extend. A 404 from the release lookup, a nil
release or a nil tag name yield the empty no-error result; any other release
lookup error is returned; a tag-ref lookup error is returned together with the
release's tag name; on success the SHA is the ref object's SHA, falling back to
the release's target commitish when that field is empty, and the result is
stored in the cache. -/
def getLatestReleaseWithClient (client : Client) (actionName : Str) (cache : Cache) :
    Result3 × Cache :=
  match splitNChar '/' 3 actionName with
  | owner :: repo :: _ =>
    match client.latestRelease owner repo with
    | .fail e =>
      if respIsNotFound e then (⟨[], [], none⟩, cache) else (⟨[], [], some e⟩, cache)
    | .ok none => (⟨[], [], none⟩, cache)
    | .ok (some release) =>
      match release.tagName with
      | none => (⟨[], [], none⟩, cache)
      | some fullVersion =>
        let majorVersion := extractMajorVersion fullVersion
        match client.getRef owner repo (("refs/tags/").data ++ fullVersion) with
        | .fail e => (⟨fullVersion, [], some e⟩, cache)
        | .ok refResp =>
          let sha :=
            if !refResp.objectSHA.isEmpty then refResp.objectSHA
            else release.targetCommitish
          (⟨fullVersion, sha, none⟩,
            cacheInsert cache (owner ++ '/' :: repo) ⟨majorVersion, fullVersion, sha⟩)
  | _ => (⟨[], [], none⟩, cache)

/-- `GetLatestReleaseWithSHA` from internal/github/action_releases.go. On a
cache hit, a major-constraint token whose major version matches the cached one
is returned as-is with an empty SHA, otherwise the cached full version and SHA
are returned; on a cache miss the client is called, an error is propagated
with empty version and SHA, and an empty SHA from the call is re-read from the
cache. -/
def GetLatestReleaseWithSHA (client : Client) (actionName currentVersion : Str)
    (cache : Cache) : Result3 × Cache :=
  let baseActionName := getBaseActionName actionName
  match cacheLookup cache baseActionName with
  | some info =>
    if GH.isMajorVersionConstraint currentVersion
        && (extractMajorVersion currentVersion == info.MajorVersion) then
      (⟨currentVersion, [], none⟩, cache)
    else (⟨info.FullVersion, info.SHA, none⟩, cache)
  | none =>
    let res := getLatestReleaseWithClient client actionName cache
    match (res.1).err with
    | some e => (⟨[], [], some e⟩, res.2)
    | none =>
      if !(res.1).sha.isEmpty then (⟨(res.1).version, (res.1).sha, none⟩, res.2)
      else
        match cacheLookup res.2 baseActionName with
        | some info2 =>
          if !info2.SHA.isEmpty then (⟨(res.1).version, info2.SHA, none⟩, res.2)
          else (⟨(res.1).version, [], none⟩, res.2)
        | none => (⟨(res.1).version, [], none⟩, res.2)

/-- `GetLatestRelease` from internal/github/action_releases.go: the
version-only variant with the same cache-hit logic. -/
def GetLatestRelease (client : Client) (actionName currentVersion : Str)
    (cache : Cache) : (Str × Option ApiError) × Cache :=
  match cacheLookup cache (getBaseActionName actionName) with
  | some info =>
    if GH.isMajorVersionConstraint currentVersion
        && (extractMajorVersion currentVersion == info.MajorVersion) then
      ((currentVersion, none), cache)
    else ((info.FullVersion, none), cache)
  | none =>
    let res := getLatestReleaseWithClient client actionName cache
    (((res.1).version, (res.1).err), res.2)

end GH

namespace Proc

/-- The per-token version test of the case-3 scan inside `updateVersionComment`:
`(strings.HasPrefix part "v" && IsVersionNumber (part[1:])) || IsVersionNumber part`. -/
def versionLooking (part : Str) : Bool :=
  (goHasPrefix part (['v']) && IsVersionNumber (part.drop 1)) || IsVersionNumber part

/-- The case-3 loop of `updateVersionComment`: replace the first token that
passes `versionLooking` with `version`; `none` when no token passes (the Go
`foundVersion` flag stays false). -/
def replaceFirstVersionTok (version : Str) : List Str → Option (List Str)
  | [] => none
  | t :: rest =>
    if versionLooking t then some (version :: rest)
    else
      match replaceFirstVersionTok version rest with
      | none => none
      | some rest' => some (t :: rest')

/-- The comment-rebuilding core of `updateVersionComment` from
internal/processor: every branch of the Go function returns
`baseContent + " # " + X` where `X` depends only on the trimmed comment text
and the version; this is that `X`. Case 1: the first token is `v`-prefixed or a
version number — replace it. Case 2: the first token contains `@` — replace the
part after the first `@` when the token splits in exactly two, otherwise
prepend the version to the raw comment text. Case 3: replace the first
version-looking token anywhere, or prepend the version to the raw comment text
when none is found. -/
def updateCommentToks (commentText version : Str) : List Str → Str
  | [] => version
  | tok :: rest =>
    if goHasPrefix tok (['v']) || IsVersionNumber tok then
      match rest with
      | [] => version
      | _ :: _ => version ++ ' ' :: joinWith ([' ']) rest
    else if tok.contains '@' then
      match splitOnChar '@' tok with
      | [p, _] =>
        match rest with
        | [] => p ++ '@' :: version
        | _ :: _ => p ++ '@' :: version ++ ' ' :: joinWith ([' ']) rest
      | _ => version ++ ' ' :: commentText
    else
      match replaceFirstVersionTok version (tok :: rest) with
      | some toks => joinWith ([' ']) toks
      | none => version ++ ' ' :: commentText

/-- The comment-rebuilding core applied to the whitespace tokens of the trimmed
comment text (Go `commentParts := strings.Fields(commentText)`). -/
def updateCommentText (commentText version : Str) : Str :=
  updateCommentToks commentText version (goFields commentText)

/-- `updateVersionComment` from internal/processor: split the line at the first
`#`, trim the code part's trailing spaces, and rebuild the comment from the
trimmed comment text via `updateCommentText`. A line with no `#` gets
`" # " + version` appended after trimming trailing spaces. -/
def updateVersionComment (line version : Str) : Str :=
  match splitFirst '#' line with
  | none => trimRightSpaces line ++ (' ' :: '#' :: ' ' :: version)
  | some (before, after) =>
    trimRightSpaces before ++
      (' ' :: '#' :: ' ' :: updateCommentText (goTrimSpace after) version)

/-- The per-line body of the rewrite loop of `PinAllActions` (and `PinAction`,
and the SHA branch of `UpdateAction`): lines containing
`actionName + "@" + currentVersion` get the first occurrence replaced by
`actionName + "@" + latestSHA` and the comment updated; other lines are kept. -/
def pinLine (actionName currentVersion latestSHA latestRelease line : Str) : Str :=
  if occursIn (actionName ++ '@' :: currentVersion) line then
    updateVersionComment
      (replaceFirst (actionName ++ '@' :: currentVersion) (actionName ++ '@' :: latestSHA) line)
      latestRelease
  else line

/-- The rewrite of `PinAllActions` on the document's list of lines. -/
def pinRewriteLines (actionName currentVersion latestSHA latestRelease : Str)
    (lines : List Str) : List Str :=
  lines.map (pinLine actionName currentVersion latestSHA latestRelease)

/-- The whole-document rewrite of `PinAllActions`: split on newline, rewrite
each line, join with newline. -/
def pinRewrite (actionName currentVersion latestSHA latestRelease content : Str) : Str :=
  joinWith (['\n'])
    (pinRewriteLines actionName currentVersion latestSHA latestRelease
      (splitOnChar '\n' content))

end Proc

namespace Cmd

/-- The non-SHA write branch of `processFile` in cmd/update.go (identical in
`UpdateAction` of internal/processor): a whole-document `strings.ReplaceAll`
of `actionName + "@" + currentVersion`, targeting the major version of the
latest release when the current token is a major constraint and otherwise the
full latest release. -/
def updateActionVersionRewrite (contentStr actionName currentVersion latestRelease : Str) :
    Str :=
  if Proc.isMajorVersionConstraint currentVersion then
    goReplaceAll (actionName ++ '@' :: currentVersion)
      (actionName ++ '@' :: extractMajorVersion latestRelease) contentStr
  else
    goReplaceAll (actionName ++ '@' :: currentVersion)
      (actionName ++ '@' :: latestRelease) contentStr

end Cmd

/-- The classifier rule exactly as the claim states it: false for the empty
string, false for every 40-character all-hexadecimal token, and for every other
token true iff after stripping one leading `v` no dot remains. -/
def claimMajorConstraint (version : Str) : Bool :=
  if version = [] then false
  else if version.length == 40 && version.all isHexDigitGo then false
  else !((if goHasPrefix version (['v']) then version.drop 1 else version).contains '.')

/-- A well-formed whitespace token: nonempty and free of whitespace characters,
as produced by Go `strings.Fields`. -/
def goodTok (t : Str) : Prop := t ≠ [] ∧ ∀ c ∈ t, goIsSpace c = false

/-- Every token of the list is well formed. -/
def goodToks (toks : List Str) : Prop := ∀ t ∈ toks, goodTok t

/-- The comment part of a line is whitespace-normalized: the text after the
first `#`, once trimmed, equals its whitespace tokens joined by single spaces.
Lines with no `#` are trivially normalized. -/
def commentNormalized (line : Str) : Bool :=
  match splitFirst '#' line with
  | none => true
  | some (_, after) =>
    decide (goTrimSpace after = joinWith ([' ']) (goFields (goTrimSpace after)))

/-- One call against the resolver API of internal/github, with the client and
arguments it was invoked with. -/
inductive ResolverOp where
  | getLatest (client : GH.Client) (actionName currentVersion : Str)
  | getLatestWithSHA (client : GH.Client) (actionName currentVersion : Str)
  | rawLookup (client : GH.Client) (actionName : Str)

/-- The effect of one resolver call on the shared release cache. -/
def applyResolverOp (cache : GH.Cache) : ResolverOp → GH.Cache
  | .getLatest client a v => (GH.GetLatestRelease client a v cache).2
  | .getLatestWithSHA client a v => (GH.GetLatestReleaseWithSHA client a v cache).2
  | .rawLookup client a => (GH.getLatestReleaseWithClient client a cache).2

/-- The cache after a sequence of resolver calls. -/
def runResolverOps (cache : GH.Cache) : List ResolverOp → GH.Cache
  | [] => cache
  | op :: rest => runResolverOps (applyResolverOp cache op) rest

/-- A client whose calls always fail with a transport error; used by witnesses. -/
def failClient : GH.Client :=
  ⟨fun _ _ => GH.ApiResult.fail (GH.ApiError.noResp (("network error").data)),
    fun _ _ _ => GH.ApiResult.fail (GH.ApiError.noResp (("network error").data))⟩

/-- A client whose release lookup answers HTTP 404; used by witnesses. -/
def notFoundClient : GH.Client :=
  ⟨fun _ _ => GH.ApiResult.fail (GH.ApiError.withStatus 404 (("not found").data)),
    fun _ _ _ => GH.ApiResult.fail (GH.ApiError.withStatus 404 (("not found").data))⟩

/-- A client whose release lookup succeeds but whose tag-ref lookup fails;
exhibits the failing second lookup of C1. -/
def refErrClient : GH.Client :=
  ⟨fun _ _ => GH.ApiResult.ok
      (some (GH.Release.mk (some (("v3.5.0").data)) (("branchsha").data))),
    fun _ _ _ => GH.ApiResult.fail (GH.ApiError.noResp (("ref lookup failed").data))⟩

/-- A client whose tag-ref lookup succeeds with an empty SHA, so the resolver
falls back to the release's target commitish. -/
def fallbackClient : GH.Client :=
  ⟨fun _ _ => GH.ApiResult.ok
      (some (GH.Release.mk (some (("v3.5.0").data)) (("branchsha").data))),
    fun _ _ _ => GH.ApiResult.ok (GH.GitRef.mk ([]))⟩

theorem goHasPrefix_nil_right (l : Str) : goHasPrefix l [] = true := by
  cases l <;> rfl

theorem goHasPrefix_cons_iff (c : Char) (cs : Str) (p : Char) (ps : Str) :
    goHasPrefix (c :: cs) (p :: ps) = true ↔ c = p ∧ goHasPrefix cs ps = true := by
  simp [goHasPrefix]

theorem goHasPrefix_append_self (pre l : Str) : goHasPrefix (pre ++ l) pre = true := by
  induction pre with
  | nil => exact goHasPrefix_nil_right l
  | cons c cs ih => simp [goHasPrefix, ih]

theorem goHasPrefix_extend (pat : Str) :
    ∀ l ext : Str, goHasPrefix l pat = true → goHasPrefix (l ++ ext) pat = true := by
  induction pat with
  | nil => intro l ext _; exact goHasPrefix_nil_right _
  | cons p ps ih =>
    intro l ext h
    cases l with
    | nil => simp [goHasPrefix] at h
    | cons c cs =>
      rw [goHasPrefix_cons_iff] at h
      rw [List.cons_append, goHasPrefix_cons_iff]
      exact ⟨h.1, ih cs ext h.2⟩

theorem goHasPrefix_eq_append (pat : Str) :
    ∀ l : Str, goHasPrefix l pat = true →
      pat.length ≤ l.length ∧ l = pat ++ l.drop pat.length := by
  induction pat with
  | nil => intro l _; simp
  | cons p ps ih =>
    intro l h
    cases l with
    | nil => simp [goHasPrefix] at h
    | cons c cs =>
      rw [goHasPrefix_cons_iff] at h
      obtain ⟨hlen, heq⟩ := ih cs h.2
      refine ⟨Nat.succ_le_succ hlen, ?_⟩
      simp only [List.length_cons, List.drop_succ_cons, List.cons_append]
      rw [h.1]
      exact congrArg (p :: ·) heq

theorem goHasPrefix_of_append_char (y : Str) (w : Char) :
    ∀ pat : Str, w ∉ pat →
      ∀ x : Str, goHasPrefix (x ++ w :: y) pat = true → goHasPrefix x pat = true := by
  intro pat
  induction pat with
  | nil => intro _ x _; exact goHasPrefix_nil_right x
  | cons p ps ih =>
    intro hw x h
    cases x with
    | nil =>
      rw [List.nil_append, goHasPrefix_cons_iff] at h
      exact absurd (h.1 ▸ List.mem_cons_self p ps) hw
    | cons c cs =>
      rw [List.cons_append, goHasPrefix_cons_iff] at h
      rw [goHasPrefix_cons_iff]
      exact ⟨h.1, ih (fun hm => hw (List.mem_cons_of_mem p hm)) cs h.2⟩

theorem splitFirst_eq_none (c : Char) :
    ∀ l : Str, c ∉ l → splitFirst c l = none := by
  intro l
  induction l with
  | nil => intro _; rfl
  | cons x xs ih =>
    intro h
    have hx : ¬ (x = c) := fun e => h (e ▸ List.mem_cons_self x xs)
    have hxs : c ∉ xs := fun hm => h (List.mem_cons_of_mem x hm)
    simp [splitFirst, hx, ih hxs]

theorem splitFirst_append (c : Char) (y : Str) :
    ∀ x : Str, c ∉ x → splitFirst c (x ++ c :: y) = some (x, y) := by
  intro x
  induction x with
  | nil => intro _; simp [splitFirst]
  | cons a as ih =>
    intro h
    have ha : ¬ (a = c) := fun e => h (e ▸ List.mem_cons_self a as)
    have has : c ∉ as := fun hm => h (List.mem_cons_of_mem a hm)
    simp [splitFirst, ha, ih has]

theorem splitFirst_some (c : Char) :
    ∀ l a b : Str, splitFirst c l = some (a, b) → l = a ++ c :: b ∧ c ∉ a := by
  intro l
  induction l with
  | nil => intro a b h; simp [splitFirst] at h
  | cons x xs ih =>
    intro a b h
    by_cases hx : x = c
    · simp [splitFirst, hx] at h
      obtain ⟨ha, hb⟩ := h
      subst ha hb
      simp [hx]
    · simp only [splitFirst, if_neg hx] at h
      cases hs : splitFirst c xs with
      | none => rw [hs] at h; simp at h
      | some ab =>
        obtain ⟨a', b'⟩ := ab
        rw [hs] at h
        simp at h
        obtain ⟨ha, hb⟩ := h
        obtain ⟨hxs', hna⟩ := ih a' b' hs
        subst ha hb
        constructor
        · rw [List.cons_append, hxs']
        · intro hm
          rcases List.mem_cons.mp hm with he | hm'
          · exact hx he.symm
          · exact hna hm'

theorem splitOnChar_ne_nil (c : Char) : ∀ l : Str, splitOnChar c l ≠ [] := by
  intro l
  cases l with
  | nil => simp [splitOnChar]
  | cons x xs =>
    by_cases hx : x = c
    · simp [splitOnChar, hx]
    · simp only [splitOnChar, if_neg hx]
      cases hs : splitOnChar c xs with
      | nil => simp
      | cons t ts => simp

theorem splitOnChar_no_sep (c : Char) :
    ∀ l : Str, c ∉ l → splitOnChar c l = [l] := by
  intro l
  induction l with
  | nil => intro _; rfl
  | cons x xs ih =>
    intro h
    have hx : ¬ (x = c) := fun e => h (e ▸ List.mem_cons_self x xs)
    have hxs : c ∉ xs := fun hm => h (List.mem_cons_of_mem x hm)
    simp [splitOnChar, hx, ih hxs]

theorem splitOnChar_append (c : Char) (z : Str) :
    ∀ x : Str, c ∉ x → splitOnChar c (x ++ c :: z) = x :: splitOnChar c z := by
  intro x
  induction x with
  | nil => intro _; simp [splitOnChar]
  | cons a as ih =>
    intro h
    have ha : ¬ (a = c) := fun e => h (e ▸ List.mem_cons_self a as)
    have has : c ∉ as := fun hm => h (List.mem_cons_of_mem a hm)
    rw [List.cons_append]
    simp only [splitOnChar, if_neg ha, ih has]

theorem splitOnChar_single (c : Char) :
    ∀ l q : Str, splitOnChar c l = [q] → l = q ∧ c ∉ q := by
  intro l
  induction l with
  | nil =>
    intro q h
    simp [splitOnChar] at h
    subst h
    simp
  | cons x xs ih =>
    intro q h
    by_cases hx : x = c
    · simp only [splitOnChar, if_pos hx] at h
      have := splitOnChar_ne_nil c xs
      simp at h
      exact absurd h.2 this
    · simp only [splitOnChar, if_neg hx] at h
      cases hs : splitOnChar c xs with
      | nil => exact absurd hs (splitOnChar_ne_nil c xs)
      | cons t ts =>
        rw [hs] at h
        simp at h
        obtain ⟨hq, hts⟩ := h
        subst hts
        obtain ⟨hxs, hnt⟩ := ih t hs
        subst hxs
        refine ⟨hq, ?_⟩
        rw [← hq]
        intro hm
        rcases List.mem_cons.mp hm with he | hm'
        · exact hx he.symm
        · exact hnt hm'

theorem splitOnChar_pair (c : Char) :
    ∀ l p q : Str, splitOnChar c l = [p, q] → l = p ++ c :: q ∧ c ∉ p ∧ c ∉ q := by
  intro l
  induction l with
  | nil => intro p q h; simp [splitOnChar] at h
  | cons x xs ih =>
    intro p q h
    by_cases hx : x = c
    · simp only [splitOnChar, if_pos hx] at h
      simp at h
      obtain ⟨hp, hq⟩ := h
      obtain ⟨hxs, hnq⟩ := splitOnChar_single c xs q hq
      subst hxs hp
      simp [hx, hnq]
    · simp only [splitOnChar, if_neg hx] at h
      cases hs : splitOnChar c xs with
      | nil => exact absurd hs (splitOnChar_ne_nil c xs)
      | cons t ts =>
        rw [hs] at h
        simp at h
        obtain ⟨hp, hts⟩ := h
        have hxs2 : splitOnChar c xs = [t, q] := by rw [hs, hts]
        obtain ⟨hxs, hnt, hnq⟩ := ih t q hxs2
        subst hxs
        refine ⟨by rw [← hp]; rfl, ?_, hnq⟩
        rw [← hp]
        intro hm
        rcases List.mem_cons.mp hm with he | hm'
        · exact hx he.symm
        · exact hnt hm'

theorem dropWhileIdem {α : Type} (p : α → Bool) :
    ∀ l : List α, (l.dropWhile p).dropWhile p = l.dropWhile p := by
  intro l
  induction l with
  | nil => rfl
  | cons a l' ih =>
    cases hp : p a with
    | true => simp [List.dropWhile_cons, hp, ih]
    | false => simp [List.dropWhile_cons, hp]

theorem dropWhile_eq_self_of_head {α : Type} (p : α → Bool) (l : List α)
    (h : ∀ a, l.head? = some a → p a = false) : l.dropWhile p = l := by
  cases l with
  | nil => rfl
  | cons a l' => simp [List.dropWhile_cons, h a rfl]

theorem trimRightSpaces_append_space (l : Str) :
    trimRightSpaces (l ++ [' ']) = trimRightSpaces l := by
  unfold trimRightSpaces
  rw [List.reverse_append]
  simp [List.dropWhile_cons]

theorem trimRightSpaces_idem (l : Str) :
    trimRightSpaces (trimRightSpaces l) = trimRightSpaces l := by
  unfold trimRightSpaces
  rw [List.reverse_reverse, dropWhileIdem]

theorem trimRightSpaces_not_mem (c : Char) (l : Str) (h : c ∉ l) :
    c ∉ trimRightSpaces l := by
  intro hm
  unfold trimRightSpaces at hm
  rw [List.mem_reverse] at hm
  exact h (List.mem_reverse.mp ((List.dropWhile_sublist _).mem hm))

theorem goTrimSpace_cons_space (c : Char) (l : Str) (h : goIsSpace c = true) :
    goTrimSpace (c :: l) = goTrimSpace l := by
  unfold goTrimSpace
  rw [List.dropWhile_cons, if_pos h]

theorem goTrimSpace_eq_self (l : Str)
    (h1 : ∀ a, l.head? = some a → goIsSpace a = false)
    (h2 : ∀ g, l.getLast? = some g → goIsSpace g = false) : goTrimSpace l = l := by
  unfold goTrimSpace
  rw [dropWhile_eq_self_of_head _ _ h1]
  rw [dropWhile_eq_self_of_head _ _ (by
    intro a ha
    rw [List.head?_reverse] at ha
    exact h2 a ha)]
  exact List.reverse_reverse l

theorem goFieldsAux_append_space (w : Char) (hw : goIsSpace w = true) (b : Str) :
    ∀ a acc : Str, goFieldsAux acc (a ++ w :: b) = goFieldsAux acc a ++ goFields b := by
  intro a
  induction a with
  | nil =>
    intro acc
    rw [List.nil_append]
    show goFieldsAux acc (w :: b) = _
    simp only [goFieldsAux, hw, if_true]
    cases hacc : acc.isEmpty <;> simp [goFields]
  | cons c a' ih =>
    intro acc
    rw [List.cons_append]
    cases hc : goIsSpace c with
    | true =>
      simp only [goFieldsAux, hc, if_true]
      cases hacc : acc.isEmpty <;> simp [ih ([])]
    | false =>
      simp only [goFieldsAux, hc, if_false]
      exact ih (c :: acc)

theorem goFieldsAux_no_space :
    ∀ t acc : Str, (∀ c ∈ t, goIsSpace c = false) →
      goFieldsAux acc t =
        if acc.reverse ++ t = [] then [] else [acc.reverse ++ t] := by
  intro t
  induction t with
  | nil =>
    intro acc _
    show (if acc.isEmpty then [] else [acc.reverse]) = _
    cases hacc : acc.isEmpty with
    | true =>
      have : acc = [] := by
        cases acc with
        | nil => rfl
        | cons x xs => simp at hacc
      simp [this]
    | false =>
      have : acc ≠ [] := by
        intro h
        rw [h] at hacc
        simp at hacc
      simp [this]
  | cons c t' ih =>
    intro acc h
    have hc : goIsSpace c = false := h c (List.mem_cons_self c t')
    simp only [goFieldsAux, hc, if_false]
    rw [ih (c :: acc) (fun d hd => h d (List.mem_cons_of_mem c hd))]
    have harr : (c :: acc).reverse ++ t' = acc.reverse ++ c :: t' := by
      simp
    rw [harr]
    simp

theorem goFields_single (t : Str) (h : goodTok t) : goFields t = [t] := by
  unfold goFields
  rw [goFieldsAux_no_space t ([]) h.2]
  simp [h.1]

theorem goFields_joinWith :
    ∀ toks : List Str, goodToks toks → goFields (joinWith ([' ']) toks) = toks := by
  intro toks
  induction toks with
  | nil => intro _; rfl
  | cons x rest ih =>
    intro h
    have hx : goodTok x := h x (List.mem_cons_self x rest)
    have hrest : goodToks rest := fun t ht => h t (List.mem_cons_of_mem x ht)
    cases rest with
    | nil => exact goFields_single x hx
    | cons y rest' =>
      have hj : joinWith ([' ']) (x :: y :: rest') =
          x ++ ' ' :: joinWith ([' ']) (y :: rest') := by
        show x ++ ([' ']) ++ joinWith ([' ']) (y :: rest') = _
        simp
      rw [hj]
      show goFieldsAux ([]) (x ++ ' ' :: joinWith ([' ']) (y :: rest')) = _
      rw [goFieldsAux_append_space ' ' (by decide) _ x ([])]
      rw [goFieldsAux_no_space x ([]) hx.2]
      simp only [List.reverse_nil, List.nil_append, if_neg hx.1]
      rw [ih hrest]
      rfl

theorem goFieldsAux_good :
    ∀ (l acc : Str), (∀ c ∈ acc, goIsSpace c = false) →
      goodToks (goFieldsAux acc l) := by
  intro l
  induction l with
  | nil =>
    intro acc hacc t ht
    by_cases hae : acc = []
    · subst hae
      simp [goFieldsAux] at ht
    · have hstep : goFieldsAux acc ([]) = [acc.reverse] := by
        have : acc.isEmpty = false := by
          cases acc with
          | nil => exact absurd rfl hae
          | cons u us => rfl
        simp [goFieldsAux, this]
      rw [hstep] at ht
      simp at ht
      subst ht
      exact ⟨fun h => hae (List.reverse_eq_nil_iff.mp h),
        fun d hd => hacc d (List.mem_reverse.mp hd)⟩
  | cons c rest ih =>
    intro acc hacc
    cases hc : goIsSpace c with
    | true =>
      by_cases hae : acc = []
      · subst hae
        have hstep : goFieldsAux ([]) (c :: rest) = goFieldsAux ([]) rest := by
          simp [goFieldsAux, hc]
        rw [hstep]
        exact ih ([]) (by intro d hd; simp at hd)
      · have hemp : acc.isEmpty = false := by
          cases acc with
          | nil => exact absurd rfl hae
          | cons u us => rfl
        have hstep : goFieldsAux acc (c :: rest) =
            acc.reverse :: goFieldsAux ([]) rest := by
          simp [goFieldsAux, hc, hemp]
        rw [hstep]
        intro t ht
        rcases List.mem_cons.mp ht with he | hm
        · subst he
          exact ⟨fun h => hae (List.reverse_eq_nil_iff.mp h),
            fun d hd => hacc d (List.mem_reverse.mp hd)⟩
        · exact ih ([]) (by intro d hd; simp at hd) t hm
    | false =>
      have hstep : goFieldsAux acc (c :: rest) = goFieldsAux (c :: acc) rest := by
        simp [goFieldsAux, hc]
      rw [hstep]
      refine ih (c :: acc) ?_
      intro d hd
      rcases List.mem_cons.mp hd with he | hm
      · rw [he]; exact hc
      · exact hacc d hm

theorem goFields_good (l : Str) : goodToks (goFields l) :=
  goFieldsAux_good l ([]) (by intro d hd; simp at hd)

theorem joinWith_space_ne_nil :
    ∀ toks : List Str, goodToks toks → toks ≠ [] → joinWith ([' ']) toks ≠ [] := by
  intro toks
  induction toks with
  | nil => intro _ h; exact absurd rfl h
  | cons x rest _ =>
    intro h _
    cases rest with
    | nil => exact (h x (List.mem_cons_self x ([]))).1
    | cons y rest' =>
      show x ++ ([' ']) ++ joinWith ([' ']) (y :: rest') ≠ []
      simp

theorem joinWith_space_head (toks : List Str) (h : goodToks toks) :
    ∀ a, (joinWith ([' ']) toks).head? = some a → goIsSpace a = false := by
  cases toks with
  | nil => intro a ha; simp [joinWith] at ha
  | cons x rest =>
    have hx : goodTok x := h x (List.mem_cons_self x rest)
    have hxh : (joinWith ([' ']) (x :: rest)).head? = x.head? := by
      cases rest with
      | nil => rfl
      | cons y rest' =>
        show (x ++ ([' ']) ++ joinWith ([' ']) (y :: rest')).head? = _
        rw [List.append_assoc]
        exact List.head?_append_of_ne_nil x hx.1
    intro a ha
    rw [hxh] at ha
    cases x with
    | nil => exact absurd rfl hx.1
    | cons c x' =>
      simp at ha
      subst ha
      exact hx.2 _ (List.mem_cons_self _ _)

theorem joinWith_space_getLast :
    ∀ toks : List Str, goodToks toks →
      ∀ g, (joinWith ([' ']) toks).getLast? = some g → goIsSpace g = false := by
  intro toks
  induction toks with
  | nil => intro _ g hg; simp [joinWith] at hg
  | cons x rest ih =>
    intro h g hg
    have hx : goodTok x := h x (List.mem_cons_self x rest)
    have hrest : goodToks rest := fun t ht => h t (List.mem_cons_of_mem x ht)
    cases rest with
    | nil =>
      have : x.getLast? = some g := hg
      have hmem : g ∈ x := by
        rcases List.mem_getLast?_eq_getLast (by exact this ▸ rfl : g ∈ x.getLast?) with ⟨hne, he⟩
        rw [he]
        exact List.getLast_mem hne
      exact hx.2 g hmem
    | cons y rest' =>
      have hj : joinWith ([' ']) (x :: y :: rest') =
          x ++ ' ' :: joinWith ([' ']) (y :: rest') := by
        show x ++ ([' ']) ++ joinWith ([' ']) (y :: rest') = _
        simp
      rw [hj] at hg
      have hjoin : joinWith ([' ']) (y :: rest') ≠ [] :=
        joinWith_space_ne_nil (y :: rest') hrest (by simp)
      rw [List.getLast?_append_of_ne_nil x (by simp [hjoin])] at hg
      have : (' ' :: joinWith ([' ']) (y :: rest')).getLast? =
          (joinWith ([' ']) (y :: rest')).getLast? := by
        show (([' ']) ++ joinWith ([' ']) (y :: rest')).getLast? = _
        exact List.getLast?_append_of_ne_nil ([' ']) hjoin
      rw [this] at hg
      exact ih hrest g hg

theorem goTrimSpace_joinWith (toks : List Str) (h : goodToks toks) :
    goTrimSpace (joinWith ([' ']) toks) = joinWith ([' ']) toks :=
  goTrimSpace_eq_self _ (joinWith_space_head toks h) (joinWith_space_getLast toks h)

theorem mem_of_head? {α : Type} (l : List α) (a : α) (h : l.head? = some a) : a ∈ l := by
  cases l with
  | nil => simp at h
  | cons x xs =>
    simp at h
    rw [h]
    exact List.mem_cons_self _ _

theorem digitDotChar (c : Char) (h : (c.isDigit || c == '.') = true) :
    goIsSpace c = false ∧ c ≠ '@' ∧ c ≠ '#' ∧ c ≠ '\n' := by
  rw [Bool.or_eq_true] at h
  rcases h with hd | hdot
  · refine ⟨?_, ?_, ?_, ?_⟩
    · cases hs : goIsSpace c with
      | false => rfl
      | true =>
        exfalso
        have hss := of_decide_eq_true hs
        rcases hss with h1 | h1 | h1 | h1 | h1 | h1 | h1 | h1 <;>
          (subst h1; exact absurd hd (by decide))
    · intro he; subst he; exact absurd hd (by decide)
    · intro he; subst he; exact absurd hd (by decide)
    · intro he; subst he; exact absurd hd (by decide)
  · have he : c = '.' := by simpa using hdot
    subst he
    exact ⟨by decide, by decide, by decide, by decide⟩

theorem IsVersionNumber_chars (v : Str) (h : IsVersionNumber v = true) :
    v ≠ [] ∧ ∀ c ∈ v, goIsSpace c = false ∧ c ≠ '@' ∧ c ≠ '#' ∧ c ≠ '\n' := by
  unfold IsVersionNumber at h
  cases hpre : goHasPrefix v (['v']) with
  | true =>
    simp only [hpre, if_true] at h
    rw [Bool.and_eq_true] at h
    obtain ⟨hall, _⟩ := h
    obtain ⟨_, hv⟩ := goHasPrefix_eq_append (['v']) v hpre
    constructor
    · rw [hv]; simp
    · intro c hc
      rw [hv] at hc
      rcases List.mem_append.mp hc with hcv | hcd
      · simp at hcv
        subst hcv
        exact ⟨by decide, by decide, by decide, by decide⟩
      · exact digitDotChar c (List.all_eq_true.mp hall c hcd)
  | false =>
    simp only [hpre, if_false] at h
    rw [Bool.and_eq_true] at h
    obtain ⟨hall, hcont⟩ := h
    constructor
    · intro he
      rw [he] at hcont
      simp at hcont
    · intro c hc
      exact digitDotChar c (List.all_eq_true.mp hall c hc)

theorem IsVersionNumber_good (v : Str) (h : IsVersionNumber v = true) : goodTok v :=
  ⟨(IsVersionNumber_chars v h).1, fun c hc => ((IsVersionNumber_chars v h).2 c hc).1⟩

theorem contains_eq_true_of_mem (l : Str) (c : Char) (h : c ∈ l) :
    l.contains c = true := by
  induction l with
  | nil => simp at h
  | cons x xs ih =>
    rcases List.mem_cons.mp h with he | hm
    · subst he; simp [List.contains_cons]
    · simp [List.contains_cons]
      exact Or.inr hm

theorem IsVersionNumber_at_mem (t : Str) (hm : ('@' : Char) ∈ t) :
    IsVersionNumber t = false := by
  unfold IsVersionNumber
  cases hpre : goHasPrefix t (['v']) with
  | true =>
    simp only [hpre, if_true]
    obtain ⟨_, hv⟩ := goHasPrefix_eq_append (['v']) t hpre
    cases hall : (t.drop 1).all (fun c => c.isDigit || c == '.') with
    | false => simp [hall]
    | true =>
      exfalso
      rw [hv] at hm
      rcases List.mem_append.mp hm with hcv | hcd
      · simp at hcv
      · have := List.all_eq_true.mp hall _ hcd
        exact absurd this (by decide)
  | false =>
    simp only [hpre, if_false]
    cases hall : t.all (fun c => c.isDigit || c == '.') with
    | false => simp [hall]
    | true =>
      exfalso
      have := List.all_eq_true.mp hall _ hm
      exact absurd this (by decide)

theorem versionLooking_of_IsVersionNumber (v : Str) (h : IsVersionNumber v = true) :
    Proc.versionLooking v = true := by
  unfold Proc.versionLooking
  rw [h]
  simp

theorem rfvt_mem (version : Str) :
    ∀ toks toks' : List Str, Proc.replaceFirstVersionTok version toks = some toks' →
      ∀ t ∈ toks', t = version ∨ t ∈ toks := by
  intro toks
  induction toks with
  | nil => intro toks' h; simp [Proc.replaceFirstVersionTok] at h
  | cons x rest ih =>
    intro toks' h t ht
    by_cases hx : Proc.versionLooking x = true
    · simp [Proc.replaceFirstVersionTok, hx] at h
      subst h
      rcases List.mem_cons.mp ht with he | hm
      · exact Or.inl he
      · exact Or.inr (List.mem_cons_of_mem x hm)
    · have hx' : Proc.versionLooking x = false := by
        cases hb : Proc.versionLooking x with
        | true => exact absurd hb hx
        | false => rfl
      simp only [Proc.replaceFirstVersionTok, hx', if_false] at h
      cases hs : Proc.replaceFirstVersionTok version rest with
      | none => rw [hs] at h; simp at h
      | some rest' =>
        rw [hs] at h
        simp at h
        subst h
        rcases List.mem_cons.mp ht with he | hm
        · subst he; exact Or.inr (List.mem_cons_self t rest)
        · rcases ih rest' hs t hm with h1 | h1
          · exact Or.inl h1
          · exact Or.inr (List.mem_cons_of_mem x h1)

theorem rfvt_idem (version : Str) (hv : Proc.versionLooking version = true) :
    ∀ toks toks' : List Str, Proc.replaceFirstVersionTok version toks = some toks' →
      Proc.replaceFirstVersionTok version toks' = some toks' := by
  intro toks
  induction toks with
  | nil => intro toks' h; simp [Proc.replaceFirstVersionTok] at h
  | cons x rest ih =>
    intro toks' h
    by_cases hx : Proc.versionLooking x = true
    · simp [Proc.replaceFirstVersionTok, hx] at h
      subst h
      simp [Proc.replaceFirstVersionTok, hv]
    · have hx' : Proc.versionLooking x = false := by
        cases hb : Proc.versionLooking x with
        | true => exact absurd hb hx
        | false => rfl
      simp only [Proc.replaceFirstVersionTok, hx', if_false] at h
      cases hs : Proc.replaceFirstVersionTok version rest with
      | none => rw [hs] at h; simp at h
      | some rest' =>
        rw [hs] at h
        simp at h
        subst h
        have hr := ih rest' hs
        simp [Proc.replaceFirstVersionTok, hx', hr]

theorem rfvt_none (version : Str) :
    ∀ toks : List Str, (∀ t ∈ toks, Proc.versionLooking t = false) →
      Proc.replaceFirstVersionTok version toks = none := by
  intro toks
  induction toks with
  | nil => intro _; rfl
  | cons x rest ih =>
    intro h
    have hx : Proc.versionLooking x = false := h x (List.mem_cons_self x rest)
    have hr := ih (fun t ht => h t (List.mem_cons_of_mem x ht))
    simp [Proc.replaceFirstVersionTok, hx, hr]

theorem splitFirst_none_not_mem (c : Char) :
    ∀ l : Str, splitFirst c l = none → c ∉ l := by
  intro l
  induction l with
  | nil => intro _; simp
  | cons x xs ih =>
    intro h hm
    by_cases hx : x = c
    · simp [splitFirst, hx] at h
    · simp only [splitFirst, if_neg hx] at h
      cases hs : splitFirst c xs with
      | none =>
        rcases List.mem_cons.mp hm with he | hm'
        · exact hx he.symm
        · exact ih hs hm'
      | some ab => rw [hs] at h; simp at h

theorem joinWith_cons_ne (sep x : Str) (rest : List Str) (h : rest ≠ []) :
    joinWith sep (x :: rest) = x ++ sep ++ joinWith sep rest := by
  cases rest with
  | nil => exact absurd rfl h
  | cons y r => rfl

theorem joinWith_space_cons (x : Str) (rest : List Str) (h : rest ≠ []) :
    joinWith ([' ']) (x :: rest) = x ++ ' ' :: joinWith ([' ']) rest := by
  rw [joinWith_cons_ne _ _ _ h, List.append_assoc]
  rfl

theorem goHasPrefix_single (a : Char) (xs : Str) (p : Char) :
    goHasPrefix (a :: xs) ([p]) = (a == p) := by
  show ((a == p) && goHasPrefix xs ([])) = (a == p)
  rw [goHasPrefix_nil_right]
  exact Bool.and_true _

theorem uct_fix_case1 (version : Str) (rest : List Str)
    (hv : IsVersionNumber version = true)
    (hgood : goodToks (version :: rest)) :
    Proc.updateCommentText (joinWith ([' ']) (version :: rest)) version =
      joinWith ([' ']) (version :: rest) := by
  unfold Proc.updateCommentText
  rw [goFields_joinWith _ hgood]
  have hcond : (goHasPrefix version (['v']) || IsVersionNumber version) = true := by
    rw [hv]; simp
  simp only [Proc.updateCommentToks]
  rw [if_pos hcond]
  cases rest with
  | nil => rfl
  | cons y rest' =>
    rw [joinWith_space_cons version (y :: rest') (by simp)]

theorem uct_fix_case2 (p version : Str) (rest : List Str)
    (hv : IsVersionNumber version = true)
    (hgood : goodToks ((p ++ '@' :: version) :: rest))
    (hpre : goHasPrefix (p ++ '@' :: version) (['v']) = false)
    (hap : ('@' : Char) ∉ p) :
    Proc.updateCommentText (joinWith ([' ']) ((p ++ '@' :: version) :: rest)) version =
      joinWith ([' ']) ((p ++ '@' :: version) :: rest) := by
  unfold Proc.updateCommentText
  rw [goFields_joinWith _ hgood]
  have hmem : ('@' : Char) ∈ p ++ '@' :: version :=
    List.mem_append_right p (List.mem_cons_self _ _)
  have hivn : IsVersionNumber (p ++ '@' :: version) = false :=
    IsVersionNumber_at_mem _ hmem
  have hcond : ¬ ((goHasPrefix (p ++ '@' :: version) (['v'])
      || IsVersionNumber (p ++ '@' :: version)) = true) := by
    rw [hpre, hivn]; simp
  simp only [Proc.updateCommentToks]
  rw [if_neg hcond]
  have hat : (p ++ '@' :: version).contains '@' = true :=
    contains_eq_true_of_mem _ _ hmem
  rw [if_pos hat]
  have hav : ('@' : Char) ∉ version := by
    intro hm
    exact ((IsVersionNumber_chars version hv).2 '@' hm).2.1 rfl
  have hsplit : splitOnChar '@' (p ++ '@' :: version) = [p, version] := by
    rw [splitOnChar_append '@' version p hap, splitOnChar_no_sep '@' version hav]
  rw [hsplit]
  cases rest with
  | nil => rfl
  | cons y rest' =>
    rw [joinWith_space_cons _ (y :: rest') (by simp)]

theorem uct_fix_case3 (version tok : Str) (rest : List Str)
    (hgood : goodToks (tok :: rest))
    (hc1 : (goHasPrefix tok (['v']) || IsVersionNumber tok) = false)
    (hat : tok.contains '@' = false)
    (hfix : Proc.replaceFirstVersionTok version (tok :: rest) = some (tok :: rest)) :
    Proc.updateCommentText (joinWith ([' ']) (tok :: rest)) version =
      joinWith ([' ']) (tok :: rest) := by
  unfold Proc.updateCommentText
  rw [goFields_joinWith _ hgood]
  simp only [Proc.updateCommentToks]
  rw [if_neg (by rw [hc1]; simp)]
  rw [if_neg (by rw [hat]; simp)]
  rw [hfix]

theorem uct_main (ct version : Str) (hv : IsVersionNumber version = true)
    (hn : ct = joinWith ([' ']) (goFields ct)) :
    ∃ toks' : List Str, goodToks toks' ∧
      Proc.updateCommentText ct version = joinWith ([' ']) toks' ∧
      Proc.updateCommentText (joinWith ([' ']) toks') version = joinWith ([' ']) toks' := by
  have hgv : goodTok version := IsVersionNumber_good version hv
  have hsingle : goodToks ([version]) := by
    intro t ht; simp at ht; subst ht; exact hgv
  have hFgood : goodToks (goFields ct) := goFields_good ct
  cases hF : goFields ct with
  | nil =>
    refine ⟨[version], hsingle, ?_, uct_fix_case1 version ([]) hv hsingle⟩
    show Proc.updateCommentText ct version = version
    unfold Proc.updateCommentText
    rw [hF]
    simp only [Proc.updateCommentToks]
  | cons tok rest =>
    rw [hF] at hFgood hn
    have htokg : goodTok tok := hFgood tok (List.mem_cons_self _ _)
    have hrestg : goodToks rest := fun t ht => hFgood t (List.mem_cons_of_mem _ ht)
    have hverrest : goodToks (version :: tok :: rest) := by
      intro t ht
      rcases List.mem_cons.mp ht with he | hm
      · subst he; exact hgv
      · exact hFgood t hm
    cases hc1 : (goHasPrefix tok (['v']) || IsVersionNumber tok) with
    | true =>
      have hgood1 : goodToks (version :: rest) := by
        intro t ht
        rcases List.mem_cons.mp ht with he | hm
        · subst he; exact hgv
        · exact hrestg t hm
      refine ⟨version :: rest, hgood1, ?_, uct_fix_case1 version rest hv hgood1⟩
      unfold Proc.updateCommentText
      rw [hF]
      simp only [Proc.updateCommentToks]
      rw [if_pos hc1]
      cases rest with
      | nil => rfl
      | cons y rest' =>
        rw [joinWith_space_cons version (y :: rest') (by simp)]
    | false =>
      have hpt : goHasPrefix tok (['v']) = false := by
        cases hb : goHasPrefix tok (['v']) with
        | false => rfl
        | true => rw [hb] at hc1; simp at hc1
      have hit : IsVersionNumber tok = false := by
        cases hb : IsVersionNumber tok with
        | false => rfl
        | true => rw [hb] at hc1; simp at hc1
      cases hat : tok.contains '@' with
      | true =>
        rcases hsp3 : splitOnChar '@' tok with _ | ⟨p, ts⟩
        · exact absurd hsp3 (splitOnChar_ne_nil '@' tok)
        rcases hts : ts with _ | ⟨q, ts2⟩
        · -- splitOnChar gave a single part: default branch, prepend to raw text
          subst hts
          refine ⟨version :: tok :: rest, hverrest, ?_,
            uct_fix_case1 version (tok :: rest) hv hverrest⟩
          unfold Proc.updateCommentText
          rw [hF]
          simp only [Proc.updateCommentToks]
          rw [if_neg (by rw [hc1]; simp), if_pos hat, hsp3]
          rw [joinWith_space_cons version (tok :: rest) (by simp), ← hn]
        rcases hts2 : ts2 with _ | ⟨r, ts3⟩
        · -- exactly two parts: the pin@version branch
          subst hts hts2
          obtain ⟨htok, hap, haq⟩ := splitOnChar_pair '@' tok p q hsp3
          have hgood2 : goodToks ((p ++ '@' :: version) :: rest) := by
            intro t ht
            rcases List.mem_cons.mp ht with he | hm
            · subst he
              constructor
              · cases p <;> simp
              · intro c hc
                rcases List.mem_append.mp hc with h1 | h1
                · refine htokg.2 c ?_
                  rw [htok]
                  exact List.mem_append_left _ h1
                · rcases List.mem_cons.mp h1 with he2 | hm2
                  · subst he2; decide
                  · exact (hgv.2 c hm2)
            · exact hrestg t hm
          have hpre2 : goHasPrefix (p ++ '@' :: version) (['v']) = false := by
            cases p with
            | nil =>
              rw [List.nil_append, goHasPrefix_single]
              decide
            | cons a p' =>
              rw [List.cons_append, goHasPrefix_single]
              rw [htok, List.cons_append, goHasPrefix_single] at hpt
              exact hpt
          refine ⟨(p ++ '@' :: version) :: rest, hgood2, ?_,
            uct_fix_case2 p version rest hv hgood2 hpre2 hap⟩
          unfold Proc.updateCommentText
          rw [hF]
          simp only [Proc.updateCommentToks]
          rw [if_neg (by rw [hc1]; simp), if_pos hat, hsp3]
          cases rest with
          | nil => rfl
          | cons y rest' =>
            rw [joinWith_space_cons _ (y :: rest') (by simp)]
        · -- three or more parts: default branch
          subst hts hts2
          refine ⟨version :: tok :: rest, hverrest, ?_,
            uct_fix_case1 version (tok :: rest) hv hverrest⟩
          unfold Proc.updateCommentText
          rw [hF]
          simp only [Proc.updateCommentToks]
          rw [if_neg (by rw [hc1]; simp), if_pos hat, hsp3]
          rw [joinWith_space_cons version (tok :: rest) (by simp), ← hn]
      | false =>
        have hvl : Proc.versionLooking tok = false := by
          unfold Proc.versionLooking
          rw [hpt, hit]
          rfl
        cases hr : Proc.replaceFirstVersionTok version (tok :: rest) with
        | some toks2 =>
          have hshape : ∃ rest', toks2 = tok :: rest' ∧
              Proc.replaceFirstVersionTok version rest = some rest' := by
            revert hr
            simp only [Proc.replaceFirstVersionTok, hvl, if_false]
            cases hs : Proc.replaceFirstVersionTok version rest with
            | none => intro hr; simp at hr
            | some r =>
              intro hr
              simp at hr
              exact ⟨r, hr.symm, rfl⟩
          obtain ⟨rest', hts, _⟩ := hshape
          have hgood3 : goodToks toks2 := by
            intro t ht
            rcases rfvt_mem version (tok :: rest) toks2 hr t ht with he | hm
            · subst he; exact hgv
            · exact hFgood t hm
          have hfix2 : Proc.replaceFirstVersionTok version toks2 = some toks2 :=
            rfvt_idem version (versionLooking_of_IsVersionNumber version hv)
              (tok :: rest) toks2 hr
          refine ⟨toks2, hgood3, ?_, ?_⟩
          · unfold Proc.updateCommentText
            rw [hF]
            simp only [Proc.updateCommentToks]
            rw [if_neg (by rw [hc1]; simp), if_neg (by rw [hat]; simp), hr]
          · rw [hts] at hfix2 hgood3 ⊢
            exact uct_fix_case3 version tok rest' hgood3
              (by rw [hpt, hit]; rfl) hat hfix2
        | none =>
          refine ⟨version :: tok :: rest, hverrest, ?_,
            uct_fix_case1 version (tok :: rest) hv hverrest⟩
          unfold Proc.updateCommentText
          rw [hF]
          simp only [Proc.updateCommentToks]
          rw [if_neg (by rw [hc1]; simp), if_neg (by rw [hat]; simp), hr]
          rw [joinWith_space_cons version (tok :: rest) (by simp), ← hn]

theorem upd_at_comment (B C version : Str) (hB : ('#' : Char) ∉ B)
    (hBt : trimRightSpaces B = B) (hC : goTrimSpace C = C) :
    Proc.updateVersionComment (B ++ (' ' :: '#' :: ' ' :: C)) version =
      B ++ (' ' :: '#' :: ' ' :: Proc.updateCommentText C version) := by
  have hsp : splitFirst '#' (B ++ (' ' :: '#' :: ' ' :: C)) =
      some (B ++ [' '], ' ' :: C) := by
    have harr : B ++ (' ' :: '#' :: ' ' :: C) = (B ++ [' ']) ++ '#' :: (' ' :: C) := by
      simp
    rw [harr]
    refine splitFirst_append '#' (' ' :: C) (B ++ [' ']) ?_
    intro hm
    rcases List.mem_append.mp hm with h1 | h1
    · exact hB h1
    · simp at h1
  unfold Proc.updateVersionComment
  rw [hsp]
  show trimRightSpaces (B ++ [' ']) ++
      (' ' :: '#' :: ' ' :: Proc.updateCommentText (goTrimSpace (' ' :: C)) version) = _
  rw [show trimRightSpaces (B ++ [' ']) = B from by rw [trimRightSpaces_append_space, hBt]]
  rw [goTrimSpace_cons_space ' ' C (by decide), hC]

/-- C4 counterexample: `updateVersionComment` is not idempotent for every line
and displayVersion. With displayVersion `1` (not version-shaped) the second
application prepends a second copy; with the version-shaped `v4.4.0` a comment
whose tokens are separated by a double space is re-joined with single spaces on
the second application. -/
theorem updateVersionComment_idem_cex :
    (Proc.updateVersionComment
        (Proc.updateVersionComment (("uses: a@b").data) (("1").data)) (("1").data) ≠
      Proc.updateVersionComment (("uses: a@b").data) (("1").data)) ∧
    (Proc.updateVersionComment
        (Proc.updateVersionComment (("x # a  b").data) (("v4.4.0").data)) (("v4.4.0").data) ≠
      Proc.updateVersionComment (("x # a  b").data) (("v4.4.0").data)) := by
  decide

/-- C4 (amended): `updateVersionComment` is idempotent for every line whose
comment text (after the first `#`, trimmed) is whitespace-normalized — equal to
its whitespace tokens joined by single spaces — and every displayVersion that
is version-shaped per `IsVersionNumber`. -/
theorem updateVersionComment_idem (line version : Str)
    (hv : IsVersionNumber version = true) (hn : commentNormalized line = true) :
    Proc.updateVersionComment (Proc.updateVersionComment line version) version =
      Proc.updateVersionComment line version := by
  have hgv : goodTok version := IsVersionNumber_good version hv
  have hsingle : goodToks ([version]) := by
    intro t ht; simp at ht; subst ht; exact hgv
  cases hsp : splitFirst '#' line with
  | none =>
    have e1 : Proc.updateVersionComment line version =
        trimRightSpaces line ++ (' ' :: '#' :: ' ' :: version) := by
      unfold Proc.updateVersionComment
      rw [hsp]
    rw [e1]
    have hBnm : ('#' : Char) ∉ trimRightSpaces line :=
      trimRightSpaces_not_mem '#' line (splitFirst_none_not_mem '#' line hsp)
    have hCv : goTrimSpace version = version :=
      goTrimSpace_joinWith ([version]) hsingle
    rw [upd_at_comment _ version version hBnm (trimRightSpaces_idem line) hCv]
    have huv : Proc.updateCommentText version version = version :=
      uct_fix_case1 version ([]) hv hsingle
    rw [huv]
  | some ba =>
    obtain ⟨before, after⟩ := ba
    obtain ⟨_, hbm⟩ := splitFirst_some '#' line before after hsp
    have hnorm : goTrimSpace after =
        joinWith ([' ']) (goFields (goTrimSpace after)) := by
      unfold commentNormalized at hn
      rw [hsp] at hn
      exact of_decide_eq_true hn
    have e1 : Proc.updateVersionComment line version =
        trimRightSpaces before ++
          (' ' :: '#' :: ' ' :: Proc.updateCommentText (goTrimSpace after) version) := by
      unfold Proc.updateVersionComment
      rw [hsp]
    obtain ⟨toks', hgood', heq', hfix'⟩ := uct_main (goTrimSpace after) version hv hnorm
    rw [e1, heq']
    rw [upd_at_comment _ _ version (trimRightSpaces_not_mem '#' before hbm)
      (trimRightSpaces_idem before) (goTrimSpace_joinWith toks' hgood')]
    rw [hfix']

/-- C4 witness: the amended idempotence at a concrete line and version. -/
theorem updateVersionComment_idem_witness :
    IsVersionNumber (("v4.4.0").data) = true ∧
      commentNormalized (("uses: a@b # v4.3.0 pinned").data) = true ∧
      Proc.updateVersionComment
          (Proc.updateVersionComment (("uses: a@b # v4.3.0 pinned").data)
            (("v4.4.0").data)) (("v4.4.0").data) =
        Proc.updateVersionComment (("uses: a@b # v4.3.0 pinned").data) (("v4.4.0").data) :=
  ⟨by decide, by decide, updateVersionComment_idem _ _ (by decide) (by decide)⟩

/-- C5 counterexample: the comment `verbose flag` matches none of the spec's
recognized version shapes (its first token `verbose` is not version-shaped —
not a `v`-prefixed semantic version, not a bare semantic version, not a numeric
string — and contains no `@`, and no later token is version-shaped), yet
`updateVersionComment` replaces `verbose` instead of prepending: the claimed
output `x # v4.4.0 verbose flag` is not produced and the token `verbose` is
dropped, because the code's first-token test accepts any token starting with
`v`. -/
theorem updateVersionComment_prepend_cex :
    Proc.updateVersionComment (("x # verbose flag").data) (("v4.4.0").data) =
        ("x # v4.4.0 flag").data ∧
      Proc.updateVersionComment (("x # verbose flag").data) (("v4.4.0").data) ≠
        ("x # v4.4.0 verbose flag").data ∧
      IsVersionNumber (("verbose").data) = false ∧
      (("verbose").data).all Char.isDigit = false ∧
      (("verbose").data).contains '@' = false ∧
      Proc.versionLooking (("flag").data) = false := by
  decide

/-- C5 (amended): for every line whose trimmed comment text has a first token
that does not start with `v`, is not version-shaped per `IsVersionNumber`, and
contains no `@`, and in which no token passes the case-3 version-looking test,
`updateVersionComment` prepends displayVersion as a new leading token before
the untouched comment text, so every existing comment token remains present
and unchanged. -/
theorem updateVersionComment_prepend_amended (line version before after tok : Str)
    (rest : List Str)
    (hsp : splitFirst '#' line = some (before, after))
    (hf : goFields (goTrimSpace after) = tok :: rest)
    (h1 : goHasPrefix tok (['v']) = false)
    (h2 : IsVersionNumber tok = false)
    (h3 : tok.contains '@' = false)
    (h4 : ∀ t ∈ tok :: rest, Proc.versionLooking t = false) :
    Proc.updateVersionComment line version =
      trimRightSpaces before ++
        (' ' :: '#' :: ' ' :: (version ++ ' ' :: goTrimSpace after)) := by
  unfold Proc.updateVersionComment
  rw [hsp]
  show trimRightSpaces before ++
      (' ' :: '#' :: ' ' :: Proc.updateCommentText (goTrimSpace after) version) = _
  have huct : Proc.updateCommentText (goTrimSpace after) version =
      version ++ ' ' :: goTrimSpace after := by
    unfold Proc.updateCommentText
    rw [hf]
    simp only [Proc.updateCommentToks]
    rw [if_neg (by rw [h1, h2]; simp)]
    rw [if_neg (by rw [h3]; simp)]
    rw [rfvt_none version (tok :: rest) h4]
  rw [huct]

/-- C5 witness: the amended prepend behavior at a concrete line. -/
theorem updateVersionComment_prepend_witness :
    splitFirst '#' (("x # stable flag").data) = some (("x ").data, (" stable flag").data) ∧
      Proc.updateVersionComment (("x # stable flag").data) (("v9.9.9").data) =
        ("x # v9.9.9 stable flag").data :=
  ⟨by decide, by
    have h := updateVersionComment_prepend_amended (("x # stable flag").data)
      (("v9.9.9").data) (("x ").data) ((" stable flag").data) (("stable").data)
      ([("flag").data]) (by decide) (by decide) (by decide) (by decide) (by decide)
      (by decide)
    rw [h]
    decide⟩

theorem joinWith_char_cons (c : Char) (x : Str) (rest : List Str) (h : rest ≠ []) :
    joinWith ([c]) (x :: rest) = x ++ c :: joinWith ([c]) rest := by
  rw [joinWith_cons_ne _ _ _ h, List.append_assoc]
  rfl

theorem graa_skip (pat repl : Str) :
    ∀ (k : Nat) (l : Str),
      goReplaceAllAux pat repl k l = goReplaceAllAux pat repl 0 (l.drop k) := by
  intro k
  induction k with
  | zero => intro l; rfl
  | succ n ih =>
    intro l
    cases l with
    | nil => simp [goReplaceAllAux]
    | cons c rest =>
      show goReplaceAllAux pat repl n rest = _
      rw [ih rest]
      rfl

theorem graa_match (pat repl : Str) (hne : pat ≠ []) (l : Str)
    (h : goHasPrefix l pat = true) :
    goReplaceAllAux pat repl 0 l =
      repl ++ goReplaceAllAux pat repl 0 (l.drop pat.length) := by
  cases l with
  | nil =>
    cases pat with
    | nil => exact absurd rfl hne
    | cons p ps => simp [goHasPrefix] at h
  | cons c rest =>
    show (if goHasPrefix (c :: rest) pat = true then
        repl ++ goReplaceAllAux pat repl (pat.length - 1) rest
      else c :: goReplaceAllAux pat repl 0 (c :: rest).tail) = _
    rw [if_pos h, graa_skip pat repl (pat.length - 1) rest]
    cases pat with
    | nil => exact absurd rfl hne
    | cons p ps => rfl

theorem graa_nomatch (pat repl : Str) (c : Char) (rest : Str)
    (h : goHasPrefix (c :: rest) pat = false) :
    goReplaceAllAux pat repl 0 (c :: rest) = c :: goReplaceAllAux pat repl 0 rest := by
  show (if goHasPrefix (c :: rest) pat = true then
      repl ++ goReplaceAllAux pat repl (pat.length - 1) rest
    else c :: goReplaceAllAux pat repl 0 rest) = _
  rw [if_neg (by rw [h]; simp)]

theorem graa_no_occurrence (pat repl : Str) :
    ∀ l : Str, occursIn pat l = false → goReplaceAllAux pat repl 0 l = l := by
  intro l
  induction l with
  | nil => intro _; rfl
  | cons c rest ih =>
    intro h
    have h2 : (goHasPrefix (c :: rest) pat || occursIn pat rest) = false := h
    rw [Bool.or_eq_false_iff] at h2
    rw [graa_nomatch pat repl c rest h2.1, ih h2.2]

theorem graa_append_char (pat repl : Str) (w : Char) (hne : pat ≠ [])
    (hw : w ∉ pat) :
    ∀ (n : Nat) (a b : Str), a.length ≤ n →
      goReplaceAllAux pat repl 0 (a ++ w :: b) =
        goReplaceAllAux pat repl 0 a ++ w :: goReplaceAllAux pat repl 0 b := by
  have hwpre : ∀ b : Str, goHasPrefix (w :: b) pat = false := by
    intro b
    cases pat with
    | nil => exact absurd rfl hne
    | cons p ps =>
      have hwp : (w == p) = false := by
        have : ¬ (w = p) := fun e => hw (e ▸ List.mem_cons_self p ps)
        simp [this]
      show ((w == p) && goHasPrefix b ps) = false
      rw [hwp]
      rfl
  intro n
  induction n with
  | zero =>
    intro a b ha
    have haz : a = [] := List.eq_nil_of_length_eq_zero (Nat.le_zero.mp ha)
    subst haz
    rw [List.nil_append, graa_nomatch pat repl w b (hwpre b)]
    rfl
  | succ n ih =>
    intro a b ha
    cases a with
    | nil =>
      rw [List.nil_append, graa_nomatch pat repl w b (hwpre b)]
      rfl
    | cons c arest =>
      cases hm : goHasPrefix ((c :: arest) ++ w :: b) pat with
      | true =>
        have hpa : goHasPrefix (c :: arest) pat = true :=
          goHasPrefix_of_append_char b w pat hw _ hm
        obtain ⟨hlen, _⟩ := goHasPrefix_eq_append pat _ hpa
        rw [graa_match pat repl hne _ hm, graa_match pat repl hne _ hpa]
        rw [List.drop_append_of_le_length hlen]
        have hp1 : 1 ≤ pat.length :=
          List.length_pos.mpr hne
        have hlrec : ((c :: arest).drop pat.length).length ≤ n := by
          rw [List.length_drop]
          simp only [List.length_cons] at ha ⊢
          omega
        rw [ih _ b hlrec, List.append_assoc]
      | false =>
        have hpa : goHasPrefix (c :: arest) pat = false := by
          cases hb : goHasPrefix (c :: arest) pat with
          | false => rfl
          | true =>
            have := goHasPrefix_extend pat _ (w :: b) hb
            rw [hm] at this
            simp at this
        have hlen2 : arest.length ≤ n := by
          simp only [List.length_cons] at ha
          omega
        calc goReplaceAllAux pat repl 0 ((c :: arest) ++ w :: b)
            = goReplaceAllAux pat repl 0 (c :: (arest ++ w :: b)) := rfl
          _ = c :: goReplaceAllAux pat repl 0 (arest ++ w :: b) :=
              graa_nomatch pat repl c (arest ++ w :: b) hm
          _ = c :: (goReplaceAllAux pat repl 0 arest ++
                w :: goReplaceAllAux pat repl 0 b) := by
              rw [ih arest b hlen2]
          _ = (c :: goReplaceAllAux pat repl 0 arest) ++
                w :: goReplaceAllAux pat repl 0 b := rfl
          _ = goReplaceAllAux pat repl 0 (c :: arest) ++
                w :: goReplaceAllAux pat repl 0 b := by
              rw [graa_nomatch pat repl c arest hpa]

theorem goReplaceAll_eq_aux (pat repl l : Str) (hne : pat ≠ []) :
    goReplaceAll pat repl l = goReplaceAllAux pat repl 0 l := by
  unfold goReplaceAll
  rw [if_neg]
  intro h
  cases pat with
  | nil => exact hne rfl
  | cons p ps => simp at h

theorem goReplaceAll_append_char (pat repl : Str) (w : Char) (hne : pat ≠ [])
    (hw : w ∉ pat) (a b : Str) :
    goReplaceAll pat repl (a ++ w :: b) =
      goReplaceAll pat repl a ++ w :: goReplaceAll pat repl b := by
  rw [goReplaceAll_eq_aux _ _ _ hne, goReplaceAll_eq_aux _ _ _ hne,
    goReplaceAll_eq_aux _ _ _ hne]
  exact graa_append_char pat repl w hne hw a.length a b (Nat.le_refl _)

theorem goReplaceAll_joinWith_nl (pat repl : Str) (hne : pat ≠ [])
    (hnl : ('\n' : Char) ∉ pat) :
    ∀ lines : List Str,
      goReplaceAll pat repl (joinWith (['\n']) lines) =
        joinWith (['\n']) (lines.map (goReplaceAll pat repl)) := by
  intro lines
  induction lines with
  | nil =>
    show goReplaceAll pat repl ([]) = []
    rw [goReplaceAll_eq_aux _ _ _ hne]
    rfl
  | cons x rest ih =>
    cases rest with
    | nil => rfl
    | cons y rest' =>
      rw [joinWith_char_cons '\n' x (y :: rest') (by simp)]
      rw [goReplaceAll_append_char pat repl '\n' hne hnl x _]
      rw [show List.map (goReplaceAll pat repl) (x :: y :: rest') =
          goReplaceAll pat repl x :: List.map (goReplaceAll pat repl) (y :: rest') from rfl]
      rw [joinWith_char_cons '\n' (goReplaceAll pat repl x)
          (List.map (goReplaceAll pat repl) (y :: rest')) (by simp)]
      rw [ih]

theorem graa_not_mem (pat repl : Str) (hne : pat ≠ []) (c : Char) (hr : c ∉ repl) :
    ∀ (n : Nat) (l : Str), l.length ≤ n → c ∉ l →
      c ∉ goReplaceAllAux pat repl 0 l := by
  intro n
  induction n with
  | zero =>
    intro l hl hcl
    have : l = [] := List.eq_nil_of_length_eq_zero (Nat.le_zero.mp hl)
    subst this
    simp [goReplaceAllAux]
  | succ n ih =>
    intro l hl hcl
    cases l with
    | nil => simp [goReplaceAllAux]
    | cons d rest =>
      cases hm : goHasPrefix (d :: rest) pat with
      | true =>
        rw [graa_match pat repl hne _ hm]
        intro hmem
        rcases List.mem_append.mp hmem with h1 | h1
        · exact hr h1
        · have hp1 : 1 ≤ pat.length := List.length_pos.mpr hne
          have hlen : ((d :: rest).drop pat.length).length ≤ n := by
            rw [List.length_drop]
            simp only [List.length_cons] at hl ⊢
            omega
          exact ih _ hlen (fun hm2 => hcl (List.mem_of_mem_drop hm2)) h1
      | false =>
        rw [graa_nomatch pat repl d rest hm]
        intro hmem
        rcases List.mem_cons.mp hmem with h1 | h1
        · exact hcl (h1 ▸ List.mem_cons_self d rest)
        · refine ih rest ?_ (fun hm2 => hcl (List.mem_cons_of_mem d hm2)) h1
          simp only [List.length_cons] at hl
          omega

theorem goReplaceAll_not_mem (pat repl : Str) (hne : pat ≠ []) (c : Char)
    (hr : c ∉ repl) (l : Str) (hl : c ∉ l) : c ∉ goReplaceAll pat repl l := by
  rw [goReplaceAll_eq_aux _ _ _ hne]
  exact graa_not_mem pat repl hne c hr l.length l (Nat.le_refl _) hl

theorem splitOnChar_joinWith (c : Char) :
    ∀ parts : List Str, (∀ p ∈ parts, c ∉ p) → parts ≠ [] →
      splitOnChar c (joinWith ([c]) parts) = parts := by
  intro parts
  induction parts with
  | nil => intro _ h; exact absurd rfl h
  | cons x rest ih =>
    intro h _
    have hx : c ∉ x := h x (List.mem_cons_self x rest)
    cases rest with
    | nil => exact splitOnChar_no_sep c x hx
    | cons y rest' =>
      rw [joinWith_char_cons c x (y :: rest') (by simp)]
      rw [splitOnChar_append c _ x hx]
      rw [ih (fun p hp => h p (List.mem_cons_of_mem x hp)) (by simp)]

/-- C2 counterexample: on the document consisting of the single line
`uses: actions/setup-node@v4.3.0 # v4.3.0`, the non-SHA update path with target
version `v4.4.0` produces `uses: actions/setup-node@v4.4.0 # v4.3.0` — the
reference advances but the trailing comment does not, so the claimed output
`uses: actions/setup-node@v4.4.0 # v4.4.0` is not produced. -/
theorem updateAction_comment_cex :
    Cmd.updateActionVersionRewrite (("uses: actions/setup-node@v4.3.0 # v4.3.0").data)
        (("actions/setup-node").data) (("v4.3.0").data) (("v4.4.0").data) =
      ("uses: actions/setup-node@v4.4.0 # v4.3.0").data ∧
    Cmd.updateActionVersionRewrite (("uses: actions/setup-node@v4.3.0 # v4.3.0").data)
        (("actions/setup-node").data) (("v4.3.0").data) (("v4.4.0").data) ≠
      ("uses: actions/setup-node@v4.4.0 # v4.4.0").data := by
  decide

/-- C2 (amended): in every document (given as its newline-free lines) that
contains the line `uses: actions/setup-node@v4.3.0 # v4.3.0`, updating
`actions/setup-node` from `v4.3.0` to `v4.4.0` with no SHA pin rewrites that
line, at the same position, to `uses: actions/setup-node@v4.4.0 # v4.3.0`: the
reference advances while the trailing comment is left unchanged, because the
non-SHA path is a plain whole-document substring replacement that never touches
comments. -/
theorem updateAction_comment_amended (lines : List Str) (i : Nat)
    (hnl : ∀ l ∈ lines, ('\n' : Char) ∉ l)
    (hi : lines.get? i = some (("uses: actions/setup-node@v4.3.0 # v4.3.0").data)) :
    (splitOnChar '\n'
        (Cmd.updateActionVersionRewrite (joinWith (['\n']) lines)
          (("actions/setup-node").data) (("v4.3.0").data) (("v4.4.0").data))).get? i =
      some (("uses: actions/setup-node@v4.4.0 # v4.3.0").data) := by
  have hlinesne : lines ≠ [] := by
    intro h
    rw [h] at hi
    simp at hi
  have hpatne : (("actions/setup-node").data ++ '@' :: ("v4.3.0").data) ≠ [] := by decide
  have hpatnl : ('\n' : Char) ∉ ("actions/setup-node").data ++ '@' :: ("v4.3.0").data := by
    decide
  have hreplnl : ('\n' : Char) ∉ ("actions/setup-node").data ++ '@' :: ("v4.4.0").data := by
    decide
  unfold Cmd.updateActionVersionRewrite
  rw [if_neg (by decide)]
  rw [goReplaceAll_joinWith_nl _ _ hpatne hpatnl lines]
  rw [splitOnChar_joinWith '\n' _ ?hmapnl ?hmapne]
  case hmapnl =>
    intro p hp
    obtain ⟨l, hl, rfl⟩ := List.mem_map.mp hp
    exact goReplaceAll_not_mem _ _ hpatne '\n' hreplnl l (hnl l hl)
  case hmapne =>
    intro h
    rw [List.map_eq_nil] at h
    exact hlinesne h
  rw [List.get?_map, hi]
  decide

/-- C2 witness: the amended statement at the one-line document. -/
theorem updateAction_comment_witness :
    (∀ l ∈ [(("uses: actions/setup-node@v4.3.0 # v4.3.0").data)], ('\n' : Char) ∉ l) ∧
      (splitOnChar '\n'
          (Cmd.updateActionVersionRewrite
            (joinWith (['\n']) ([(("uses: actions/setup-node@v4.3.0 # v4.3.0").data)]))
            (("actions/setup-node").data) (("v4.3.0").data) (("v4.4.0").data))).get? 0 =
        some (("uses: actions/setup-node@v4.4.0 # v4.3.0").data) :=
  ⟨by decide, updateAction_comment_amended
    ([(("uses: actions/setup-node@v4.3.0 # v4.3.0").data)]) 0 (by decide) (by decide)⟩

/-- C10 (confirmed): the non-SHA update path is a whole-document substring
replacement, so when the search string `actions/cache@v4` occurs embedded in a
longer version token the embedded occurrence is rewritten as well: for every
residual suffix in which the search string does not occur again, the document
`uses: actions/cache@v4<rest>` updates to `uses: actions/cache@v5<rest>`
(target major version of latest release `v5.0.0`), producing the replacement
followed by the residual suffix of the longer token. -/
theorem updateAction_embedded_token (rest : Str)
    (h : occursIn (("actions/cache@v4").data) rest = false) :
    Cmd.updateActionVersionRewrite ((("uses: actions/cache@v4").data) ++ rest)
        (("actions/cache").data) (("v4").data) (("v5.0.0").data) =
      (("uses: actions/cache@v5").data) ++ rest := by
  have h' : occursIn ((("actions/cache").data) ++ '@' :: ("v4").data) rest = false := h
  unfold Cmd.updateActionVersionRewrite
  rw [if_pos (by decide)]
  rw [goReplaceAll_eq_aux _ _ _ (by decide)]
  rw [show (("uses: actions/cache@v4").data) ++ rest =
      (("uses:").data) ++ ' ' ::
        (((("actions/cache").data) ++ '@' :: ("v4").data) ++ rest) from rfl]
  rw [graa_append_char ((("actions/cache").data) ++ '@' :: ("v4").data)
      ((("actions/cache").data) ++ '@' :: extractMajorVersion (("v5.0.0").data))
      ' ' (by decide) (by decide) ((("uses:").data).length) (("uses:").data)
      (((("actions/cache").data) ++ '@' :: ("v4").data) ++ rest) (Nat.le_refl _)]
  rw [graa_no_occurrence _ _ (("uses:").data) (by decide)]
  rw [graa_match _ _ (by decide) _ (goHasPrefix_append_self _ rest)]
  rw [List.drop_left]
  rw [graa_no_occurrence _ _ rest h']
  rfl

/-- C10 witness: the embedded-token rewrite at the residual suffix `.1.0`. -/
theorem updateAction_embedded_token_witness :
    occursIn (("actions/cache@v4").data) ((".1.0").data) = false ∧
      Cmd.updateActionVersionRewrite (("uses: actions/cache@v4.1.0").data)
          (("actions/cache").data) (("v4").data) (("v5.0.0").data) =
        ("uses: actions/cache@v5.1.0").data :=
  ⟨by decide, updateAction_embedded_token ((".1.0").data) (by decide)⟩

/-- C8 (confirmed): every line of the document that does not contain
`actionName + "@" + currentVersion` is mapped to itself, at the same position,
by the per-line pin rewrite, and the whole rewritten document is exactly the
newline-join of the rewritten lines. -/
theorem pin_rewrite_frame (actionName currentVersion latestSHA latestRelease
    content : Str) (i : Nat) (line : Str)
    (hi : (splitOnChar '\n' content).get? i = some line)
    (hno : occursIn (actionName ++ '@' :: currentVersion) line = false) :
    (Proc.pinRewriteLines actionName currentVersion latestSHA latestRelease
        (splitOnChar '\n' content)).get? i = some line ∧
      Proc.pinRewrite actionName currentVersion latestSHA latestRelease content =
        joinWith (['\n'])
          (Proc.pinRewriteLines actionName currentVersion latestSHA latestRelease
            (splitOnChar '\n' content)) := by
  constructor
  · unfold Proc.pinRewriteLines
    rw [List.get?_map, hi]
    simp [Proc.pinLine, hno]
  · rfl

/-- C8 witness: the frame property at a two-line document whose first line does
not mention the action. -/
theorem pin_rewrite_frame_witness :
    (splitOnChar '\n' (("name: ci\n  uses: a/b@v1 # v1").data)).get? 0 =
        some (("name: ci").data) ∧
      occursIn ((("a/b").data) ++ '@' :: ("v1").data) (("name: ci").data) = false ∧
      (Proc.pinRewriteLines (("a/b").data) (("v1").data) (("sha").data) (("v2").data)
          (splitOnChar '\n' (("name: ci\n  uses: a/b@v1 # v1").data))).get? 0 =
        some (("name: ci").data) :=
  ⟨by decide, by decide,
    (pin_rewrite_frame (("a/b").data) (("v1").data) (("sha").data) (("v2").data)
      (("name: ci\n  uses: a/b@v1 # v1").data) 0 (("name: ci").data)
      (by decide) (by decide)).1⟩

theorem cacheLookup_insert_isSome (k' : Str) (v : GH.ReleaseInfo) :
    ∀ (cache : GH.Cache) (k : Str), (GH.cacheLookup cache k).isSome = true →
      (GH.cacheLookup (GH.cacheInsert cache k' v) k).isSome = true := by
  intro cache
  induction cache with
  | nil =>
    intro k h
    simp [GH.cacheLookup] at h
  | cons kv rest ih =>
    intro k h
    obtain ⟨k0, v0⟩ := kv
    by_cases h0 : k0 = k'
    · subst h0
      show (GH.cacheLookup (if k0 = k0 then (k0, v) :: rest else _) k).isSome = true
      rw [if_pos rfl]
      by_cases hk : k0 = k
      · simp [GH.cacheLookup, hk]
      · show (GH.cacheLookup ((k0, v) :: rest) k).isSome = true
        simp only [GH.cacheLookup, if_neg hk]
        simp only [GH.cacheLookup, if_neg hk] at h
        exact h
    · show (GH.cacheLookup (if k0 = k' then _ else (k0, v0) :: GH.cacheInsert rest k' v) k).isSome
          = true
      rw [if_neg h0]
      by_cases hk : k0 = k
      · simp [GH.cacheLookup, hk]
      · simp only [GH.cacheLookup, if_neg hk]
        simp only [GH.cacheLookup, if_neg hk] at h
        exact ih k h

theorem getLatestReleaseWithClient_cache (client : GH.Client) (actionName : Str)
    (cache : GH.Cache) :
    (GH.getLatestReleaseWithClient client actionName cache).2 = cache ∨
      ∃ k v, (GH.getLatestReleaseWithClient client actionName cache).2 =
        GH.cacheInsert cache k v := by
  unfold GH.getLatestReleaseWithClient
  repeat' split
  all_goals first
    | exact Or.inl rfl
    | exact Or.inr ⟨_, _, rfl⟩

theorem getLatestReleaseWithSHA_cache (client : GH.Client)
    (actionName currentVersion : Str) (cache : GH.Cache) :
    (GH.GetLatestReleaseWithSHA client actionName currentVersion cache).2 = cache ∨
      (GH.GetLatestReleaseWithSHA client actionName currentVersion cache).2 =
        (GH.getLatestReleaseWithClient client actionName cache).2 := by
  simp only [GH.GetLatestReleaseWithSHA]
  repeat' split
  all_goals first
    | exact Or.inl rfl
    | exact Or.inr rfl

theorem getLatestRelease_cache (client : GH.Client)
    (actionName currentVersion : Str) (cache : GH.Cache) :
    (GH.GetLatestRelease client actionName currentVersion cache).2 = cache ∨
      (GH.GetLatestRelease client actionName currentVersion cache).2 =
        (GH.getLatestReleaseWithClient client actionName cache).2 := by
  simp only [GH.GetLatestRelease]
  repeat' split
  all_goals first
    | exact Or.inl rfl
    | exact Or.inr rfl

theorem applyResolverOp_shape (cache : GH.Cache) (op : ResolverOp) :
    applyResolverOp cache op = cache ∨
      ∃ k v, applyResolverOp cache op = GH.cacheInsert cache k v := by
  cases op with
  | getLatest client a v =>
    have he : applyResolverOp cache (ResolverOp.getLatest client a v) =
        (GH.GetLatestRelease client a v cache).2 := rfl
    rw [he]
    rcases getLatestRelease_cache client a v cache with h | h
    · exact Or.inl h
    · rw [h]
      exact getLatestReleaseWithClient_cache client a cache
  | getLatestWithSHA client a v =>
    have he : applyResolverOp cache (ResolverOp.getLatestWithSHA client a v) =
        (GH.GetLatestReleaseWithSHA client a v cache).2 := rfl
    rw [he]
    rcases getLatestReleaseWithSHA_cache client a v cache with h | h
    · exact Or.inl h
    · rw [h]
      exact getLatestReleaseWithClient_cache client a cache
  | rawLookup client a =>
    exact getLatestReleaseWithClient_cache client a cache

/-- C9 (confirmed): the release cache only grows. Every resolver operation
either leaves the cache unchanged or performs one unconditional whole-record
map assignment (`cacheInsert`), and across every sequence of resolver
operations an identity once present in the cache remains present. -/
theorem releaseCache_monotone :
    (∀ (cache : GH.Cache) (op : ResolverOp),
        applyResolverOp cache op = cache ∨
          ∃ k v, applyResolverOp cache op = GH.cacheInsert cache k v) ∧
      ∀ (ops : List ResolverOp) (cache : GH.Cache) (k : Str),
        (GH.cacheLookup cache k).isSome = true →
        (GH.cacheLookup (runResolverOps cache ops) k).isSome = true := by
  refine ⟨applyResolverOp_shape, ?_⟩
  intro ops
  induction ops with
  | nil => intro cache k h; exact h
  | cons op rest ih =>
    intro cache k h
    show (GH.cacheLookup (runResolverOps (applyResolverOp cache op) rest) k).isSome = true
    refine ih (applyResolverOp cache op) k ?_
    rcases applyResolverOp_shape cache op with he | ⟨k', v', he⟩
    · rw [he]; exact h
    · rw [he]
      exact cacheLookup_insert_isSome k' v' cache k h

/-- C9 witness: a key present in the cache is still present after a sequence of
resolver operations that include a failing lookup and a cache-hit read. -/
theorem releaseCache_monotone_witness :
    (GH.cacheLookup ([((("a/b").data), GH.ReleaseInfo.mk (("v1").data) (("v1.0.0").data)
        (("sha1").data))]) (("a/b").data)).isSome = true ∧
      (GH.cacheLookup
          (runResolverOps ([((("a/b").data), GH.ReleaseInfo.mk (("v1").data)
              (("v1.0.0").data) (("sha1").data))])
            ([ResolverOp.rawLookup failClient (("c/d").data),
              ResolverOp.getLatestWithSHA failClient (("a/b").data) (("v1").data)]))
          (("a/b").data)).isSome = true :=
  ⟨by decide, releaseCache_monotone.2 _ _ _ (by decide)⟩

/-- C6 (confirmed): with a cached entry whose major version is `v4`, resolving
with current token `v4` returns the token itself with an empty SHA and no
error, and resolving with `v3` returns the cached full version and SHA; in both
cases the cache is unchanged and the result is the same for every client, so no
external lookup is involved. -/
theorem cache_major_shortcircuit (cache : GH.Cache) (actionName : Str)
    (info : GH.ReleaseInfo) (client : GH.Client)
    (hc : GH.cacheLookup cache (GH.getBaseActionName actionName) = some info)
    (hmaj : info.MajorVersion = ("v4").data) :
    GH.GetLatestReleaseWithSHA client actionName (("v4").data) cache =
        (GH.Result3.mk (("v4").data) ([]) none, cache) ∧
      GH.GetLatestReleaseWithSHA client actionName (("v3").data) cache =
        (GH.Result3.mk info.FullVersion info.SHA none, cache) := by
  constructor
  · have hcond : (GH.isMajorVersionConstraint (("v4").data)
        && (extractMajorVersion (("v4").data) == ("v4").data)) = true := by decide
    simp [GH.GetLatestReleaseWithSHA, hc, hmaj, hcond]
  · have hcond : (GH.isMajorVersionConstraint (("v3").data)
        && (extractMajorVersion (("v3").data) == ("v4").data)) = false := by decide
    simp [GH.GetLatestReleaseWithSHA, hc, hmaj, hcond]

/-- C6 witness: the short-circuit at a concrete cache. -/
theorem cache_major_shortcircuit_witness :
    GH.cacheLookup ([((("actions/setup-node").data),
          GH.ReleaseInfo.mk (("v4").data) (("v4.4.0").data) (("sha44").data))])
        (GH.getBaseActionName (("actions/setup-node").data)) =
      some (GH.ReleaseInfo.mk (("v4").data) (("v4.4.0").data) (("sha44").data)) ∧
      GH.GetLatestReleaseWithSHA failClient (("actions/setup-node").data) (("v4").data)
          ([((("actions/setup-node").data),
            GH.ReleaseInfo.mk (("v4").data) (("v4.4.0").data) (("sha44").data))]) =
        (GH.Result3.mk (("v4").data) ([]) none,
          ([((("actions/setup-node").data),
            GH.ReleaseInfo.mk (("v4").data) (("v4.4.0").data) (("sha44").data))])) :=
  ⟨by decide,
    (cache_major_shortcircuit
      ([((("actions/setup-node").data),
        GH.ReleaseInfo.mk (("v4").data) (("v4.4.0").data) (("sha44").data))])
      (("actions/setup-node").data)
      (GH.ReleaseInfo.mk (("v4").data) (("v4.4.0").data) (("sha44").data))
      failClient (by decide) (by decide)).1⟩

/-- C7 (confirmed): a release lookup answered with HTTP 404, a nil release, or
a release with no tag name yields the empty result with a nil error, while an
error that is not a 404 response is returned as a non-nil error with empty
version and SHA; the two outcomes are distinguished by the error component
(`none` versus `some`). -/
theorem release_lookup_outcomes (client : GH.Client) (actionName : Str)
    (cache : GH.Cache) (owner repo : Str) (restParts : List Str)
    (hparse : splitNChar '/' 3 actionName = owner :: repo :: restParts) :
    (∀ e, client.latestRelease owner repo = GH.ApiResult.fail e →
        (GH.respIsNotFound e = true →
          (GH.getLatestReleaseWithClient client actionName cache).1 =
            GH.Result3.mk ([]) ([]) none) ∧
        (GH.respIsNotFound e = false →
          (GH.getLatestReleaseWithClient client actionName cache).1 =
            GH.Result3.mk ([]) ([]) (some e))) ∧
      (client.latestRelease owner repo = GH.ApiResult.ok none →
        (GH.getLatestReleaseWithClient client actionName cache).1 =
          GH.Result3.mk ([]) ([]) none) ∧
      (∀ rel, client.latestRelease owner repo = GH.ApiResult.ok (some rel) →
        rel.tagName = none →
        (GH.getLatestReleaseWithClient client actionName cache).1 =
          GH.Result3.mk ([]) ([]) none) := by
  refine ⟨?_, ?_, ?_⟩
  · intro e he
    constructor
    · intro hnf
      simp [GH.getLatestReleaseWithClient, hparse, he, hnf]
    · intro hnf
      simp [GH.getLatestReleaseWithClient, hparse, he, hnf]
  · intro h
    simp [GH.getLatestReleaseWithClient, hparse, h]
  · intro rel h htag
    simp [GH.getLatestReleaseWithClient, hparse, h, htag]

/-- C7 witness: a 404 answer gives the empty no-error result while a transport
failure gives a non-nil error. -/
theorem release_lookup_outcomes_witness :
    (GH.getLatestReleaseWithClient notFoundClient (("a/b").data) ([])).1 =
        GH.Result3.mk ([]) ([]) none ∧
      (GH.getLatestReleaseWithClient failClient (("a/b").data) ([])).1 =
        GH.Result3.mk ([]) ([])
          (some (GH.ApiError.noResp (("network error").data))) :=
  ⟨((release_lookup_outcomes notFoundClient (("a/b").data) ([]) (("a").data)
      (("b").data) ([]) (by decide)).1 _ rfl).1 (by decide),
    ((release_lookup_outcomes failClient (("a/b").data) ([]) (("a").data)
      (("b").data) ([]) (by decide)).1 _ rfl).2 (by decide)⟩

theorem cacheLookup_cacheInsert_self :
    ∀ (cache : GH.Cache) (k : Str) (v : GH.ReleaseInfo),
      GH.cacheLookup (GH.cacheInsert cache k v) k = some v := by
  intro cache
  induction cache with
  | nil => intro k v; simp [GH.cacheInsert, GH.cacheLookup]
  | cons kv rest ih =>
    intro k v
    obtain ⟨k0, v0⟩ := kv
    by_cases h0 : k0 = k
    · simp [GH.cacheInsert, GH.cacheLookup, h0]
    · simp [GH.cacheInsert, GH.cacheLookup, h0, ih]

/-- C1 counterexample: on the cache-miss path, when the release lookup succeeds
(tag `v3.5.0`, target commitish `branchsha`) but the second lookup resolving the
tag's commit identifier fails, `GetLatestReleaseWithSHA` returns the error with
an empty version — it does not fall back to the target commitish and does not
return the resolved full version, contrary to the claim. -/
theorem resolve_refError_cex :
    (GH.GetLatestReleaseWithSHA refErrClient (("actions/checkout").data)
        (("v4").data) ([])).1 =
      GH.Result3.mk ([]) ([])
        (some (GH.ApiError.noResp (("ref lookup failed").data))) ∧
      (GH.GetLatestReleaseWithSHA refErrClient (("actions/checkout").data)
          (("v4").data) ([])).1.err ≠ none := by
  decide

/-- C1 (amended): on the cache-miss success path, the fallback to the release's
target branch/commit field applies when the second lookup succeeds but carries
an empty commit SHA — then the resolution returns the resolved full version
with the target commitish as SHA and no error; when the second lookup fails,
the whole resolution fails with that error and an empty version. -/
theorem resolve_sha_fallback_amended (client : GH.Client)
    (actionName currentVersion : Str) (cache : GH.Cache) (owner repo : Str)
    (restParts : List Str) (rel : GH.Release) (fv : Str)
    (hparse : splitNChar '/' 3 actionName = owner :: repo :: restParts)
    (hmiss : GH.cacheLookup cache (GH.getBaseActionName actionName) = none)
    (hrel : client.latestRelease owner repo = GH.ApiResult.ok (some rel))
    (htag : rel.tagName = some fv) :
    (∀ refResp : GH.GitRef,
        client.getRef owner repo ((("refs/tags/").data) ++ fv) =
          GH.ApiResult.ok refResp →
        refResp.objectSHA = [] →
        (GH.GetLatestReleaseWithSHA client actionName currentVersion cache).1 =
          GH.Result3.mk fv rel.targetCommitish none) ∧
      ∀ e, client.getRef owner repo ((("refs/tags/").data) ++ fv) =
          GH.ApiResult.fail e →
        (GH.GetLatestReleaseWithSHA client actionName currentVersion cache).1 =
          GH.Result3.mk ([]) ([]) (some e) := by
  have hbase : GH.getBaseActionName actionName = owner ++ '/' :: repo := by
    unfold GH.getBaseActionName
    rw [hparse]
  have hmiss2 : GH.cacheLookup cache (owner ++ '/' :: repo) = none := hbase ▸ hmiss
  constructor
  · intro refResp href hobj
    obtain ⟨osha⟩ := refResp
    have hobj2 : osha = [] := hobj
    subst hobj2
    have href2 : client.getRef owner repo
        ('r' :: 'e' :: 'f' :: 's' :: '/' :: 't' :: 'a' :: 'g' :: 's' :: '/' :: fv) =
        GH.ApiResult.ok (GH.GitRef.mk ([])) := href
    have hres : GH.getLatestReleaseWithClient client actionName cache =
        (GH.Result3.mk fv rel.targetCommitish none,
          GH.cacheInsert cache (owner ++ '/' :: repo)
            (GH.ReleaseInfo.mk (extractMajorVersion fv) fv rel.targetCommitish)) := by
      simp [GH.getLatestReleaseWithClient, hparse, hrel, htag, href2]
    cases htc : rel.targetCommitish with
    | nil =>
      simp [GH.GetLatestReleaseWithSHA, hbase, hmiss2, hres, htc,
        cacheLookup_cacheInsert_self]
    | cons c rest2 =>
      simp [GH.GetLatestReleaseWithSHA, hbase, hmiss2, hres, htc]
  · intro e href
    have href2 : client.getRef owner repo
        ('r' :: 'e' :: 'f' :: 's' :: '/' :: 't' :: 'a' :: 'g' :: 's' :: '/' :: fv) =
        GH.ApiResult.fail e := href
    have hres : GH.getLatestReleaseWithClient client actionName cache =
        (GH.Result3.mk fv ([]) (some e), cache) := by
      simp [GH.getLatestReleaseWithClient, hparse, hrel, htag, href2]
    simp [GH.GetLatestReleaseWithSHA, hbase, hmiss2, hres]

/-- C1 witness: the amended fallback at a concrete client whose ref lookup
returns an empty SHA. -/
theorem resolve_sha_fallback_witness :
    (GH.GetLatestReleaseWithSHA fallbackClient (("actions/checkout").data)
        (("v4").data) ([])).1 =
      GH.Result3.mk (("v3.5.0").data) (("branchsha").data) none :=
  (resolve_sha_fallback_amended fallbackClient (("actions/checkout").data)
      (("v4").data) ([]) (("actions").data) (("checkout").data) ([])
      (GH.Release.mk (some (("v3.5.0").data)) (("branchsha").data))
      (("v3.5.0").data) (by decide) (by decide) rfl rfl).1
    (GH.GitRef.mk ([])) rfl rfl

/-- C3 counterexample: the processor/cmd copy of `isMajorVersionConstraint`,
cited by the claim, classifies the 40-hex-character token `aaaa…a` as a major
version constraint, although the claim requires `false` for every 40-character
all-hexadecimal token. -/
theorem procMajorConstraint_hex40_cex :
    Proc.isMajorVersionConstraint (List.replicate 40 'a') = true ∧
      (List.replicate 40 'a').length = 40 ∧
      (List.replicate 40 'a').all isHexDigitGo = true := by
  decide

/-- C3 (amended): the github resolver's `isMajorVersionConstraint` satisfies the
claimed rule for every token: false for the empty string and for every
40-character all-hexadecimal token, and for every other non-empty token true iff
after stripping one leading `v` the token contains no dot. (The processor/cmd
copies omit the 40-hex guard; see the counterexample.) -/
theorem gh_isMajorVersionConstraint_spec :
    ∀ version : Str, GH.isMajorVersionConstraint version = claimMajorConstraint version := by
  intro v
  cases v with
  | nil => rfl
  | cons a l =>
    simp [GH.isMajorVersionConstraint, claimMajorConstraint, isHexString]
